import Mathlib

/-!
Verification of the 0/1 knapsack solvers of this repository.

The repository implements three solvers for the 0/1 knapsack problem:
* `knapsack_dynamic_programming` and `knapsack_dynamic_programming_optimized`
  (src/src/algorithms/dynamic_programming.cpp),
* `knapsack_backtracking` with its recursive helper `backtrack`
  (backtracking.cpp),
* `knapsack_branch_and_bound` with `calcular_limitante`
  (src/src/algorithms/branch_and_bound.cpp).

Each solver takes `(capacidade, pesos, valores)` and returns a pair
`(maxValue, selectedIndices)`.  The C++ code works on `int`; the
well-formedness assumptions of the specification (capacity ≥ 0, weights ≥ 1,
values ≥ 0) let us embed all of these quantities as `ℕ`.  The `double`
density field `razao` and the `double` bound `limitante` are embedded as
exact rationals `ℚ`; on rationals, `v / p` is the exact value the C++
computes up to rounding, and none of the verified claims depends on
rounding of ties.  C++ `std::vector` becomes `List`, reads `v[i]` become
`List.getD i` (all verified accesses are in range), and the unstable
`std::sort` (whose order on density ties is unspecified) is refined by
`List.insertionSort` with the same comparator.
-/

/-- Specification-side optimum: the best achievable total value over all
subsets (sublists) of the item list `(peso, valor)` whose total weight fits
in the capacity.  Stated as the textbook recursion on the first item. -/

def optVal (cap : ℕ) : List (ℕ × ℕ) → ℕ
  | [] => 0
  | (p, v) :: rest =>
    if p ≤ cap then max (v + optVal (cap - p) rest) (optVal cap rest)
    else optVal cap rest

/-!
## The 2D dynamic-programming solver

`knapsack_dynamic_programming` in dynamic_programming.cpp fills a table
`tabela[i][w]` for `0 ≤ i ≤ n`, `0 ≤ w ≤ capacidade` by
`tabela[0][w] = 0` and, for `i ≥ 1`,
`tabela[i][w] = tabela[i-1][w]` overridden with
`max(tabela[i-1][w], tabela[i-1][w - pesos[i-1]] + valores[i-1])` when
`pesos[i-1] ≤ w`.  The loops compute exactly this recurrence, which we
embed as a recursive function of `(i, w)`. -/

def tabela (pesos valores : List ℕ) : ℕ → ℕ → ℕ
  | 0, _ => 0
  | i + 1, w =>
    if pesos.getD i 0 ≤ w then
      max (tabela pesos valores i w)
        (tabela pesos valores i (w - pesos.getD i 0) + valores.getD i 0)
    else tabela pesos valores i w

/-- The reconstruction loop of `knapsack_dynamic_programming`: walk `i`
from `n` down to `1`; whenever `tabela[i][w] ≠ tabela[i-1][w]`, record
item `i-1` (0-based) and subtract its weight from `w`.  The C++ loop
`push_back`s the indices in the order it finds them, producing a
descending list, and does not reverse it. -/

def reconstruct (pesos valores : List ℕ) : ℕ → ℕ → List ℕ
  | 0, _ => []
  | i + 1, w =>
    if tabela pesos valores (i + 1) w ≠ tabela pesos valores i w then
      i :: reconstruct pesos valores i (w - pesos.getD i 0)
    else reconstruct pesos valores i w

/-- Function `knapsack_dynamic_programming(capacidade, pesos, valores)` from
dynamic_programming.cpp: the filled table's corner value together with the
traced-back selection. -/

def knapsack_dynamic_programming (capacidade : ℕ) (pesos valores : List ℕ) :
    ℕ × List ℕ :=
  (tabela pesos valores pesos.length capacidade,
   reconstruct pesos valores pesos.length capacidade)

/-!
## The memory-optimized 1D dynamic-programming solver

`knapsack_dynamic_programming_optimized` keeps a single row `tabela[0..W]`
and an auxiliary boolean table `selecionado[i][w]`.  For each item `i` it
walks `w` from `capacidade` down to `pesos[i-1]` and overwrites
`tabela[w]` with `valores[i-1] + tabela[w - pesos[i-1]]` whenever that is
strictly larger, marking `selecionado[i][w]`.  We model one inner loop as a
fold over the descending list of visited positions, the row state being a
pair of functions (the value row and the `selecionado` row for this item). -/

def descList (capacidade p : ℕ) : List ℕ :=
  (List.range' p (capacidade + 1 - p)).reverse

def loopW (p v : ℕ) : List ℕ → (ℕ → ℕ) × (ℕ → Bool) → (ℕ → ℕ) × (ℕ → Bool)
  | [], st => st
  | w :: ws, st =>
    loopW p v ws
      (fun x => if x = w ∧ st.1 w < v + st.1 (w - p) then v + st.1 (w - p) else st.1 x,
       fun x => if x = w ∧ st.1 w < v + st.1 (w - p) then true else st.2 x)

/-- The value row and this item's `selecionado` row after processing the
first `i` items in the 1D variant. -/

def dp1row (capacidade : ℕ) (pesos valores : List ℕ) : ℕ → (ℕ → ℕ) × (ℕ → Bool)
  | 0 => (fun _ => 0, fun _ => false)
  | i + 1 =>
    loopW (pesos.getD i 0) (valores.getD i 0)
      (descList capacidade (pesos.getD i 0))
      ((dp1row capacidade pesos valores i).1, fun _ => false)

/-- Reconstruction of the 1D variant: walk `i` from `n` down to `1`,
collecting item `i-1` whenever `selecionado[i][w]` is set. -/

def reconstruct1 (capacidade : ℕ) (pesos valores : List ℕ) : ℕ → ℕ → List ℕ
  | 0, _ => []
  | i + 1, w =>
    if (dp1row capacidade pesos valores (i + 1)).2 w then
      i :: reconstruct1 capacidade pesos valores i (w - pesos.getD i 0)
    else reconstruct1 capacidade pesos valores i w

/-- Function `knapsack_dynamic_programming_optimized(capacidade, pesos, valores)`
from dynamic_programming.cpp; the traced-back list is reversed to ascending
order before returning. -/

def knapsack_dynamic_programming_optimized (capacidade : ℕ)
    (pesos valores : List ℕ) : ℕ × List ℕ :=
  ((dp1row capacidade pesos valores pesos.length).1 capacidade,
   (reconstruct1 capacidade pesos valores pesos.length capacidade).reverse)

/-!
## Items and the density-descending sort

Both search solvers copy the input into a vector of `Item`s carrying the
original index and the density `razao = valor / peso` (a `double` in the
C++, an exact rational here), and sort it by strictly descending `razao`
with an unstable `std::sort`.  `List.insertionSort` with the matching
total order `b.razao ≤ a.razao` is a refinement of that sort: it produces
a density-non-increasing permutation, which is all the code relies on. -/

structure Item where
  peso : ℕ
  valor : ℕ
  indice : ℕ
deriving DecidableEq

def Item.razao (it : Item) : ℚ := mkRat it.valor it.peso

/-- The item vector built from the input arrays (original 0-based index). -/

def mkItens (pesos valores : List ℕ) : List Item :=
  (List.range pesos.length).map fun i => ⟨pesos.getD i 0, valores.getD i 0, i⟩

/-- Density-descending ordering of the item vector. -/

def sortItens (itens : List Item) : List Item :=
  List.insertionSort (fun a b => b.razao ≤ a.razao) itens

/-- The `(peso, valor)` view of an item list. -/

def pairsOf (itens : List Item) : List (ℕ × ℕ) :=
  itens.map fun it => (it.peso, it.valor)

/-!
## The backtracking solver

`backtrack` from backtracking.cpp, with the by-reference accumulators
`(valor_maximo, melhor_selecao)` threaded explicitly as the state `st` and
the item suffix `itens[indice..]` passed as a list.  The C++ working
selection is `push_back`ed before the include call and `pop_back`ed right
after, which functionally means the include call receives
`selecao_atual ++ [indice]` and the exclude call receives `selecao_atual`
unchanged. -/

def backtrack (capacidade : ℕ) :
    List Item → ℕ → ℕ → List ℕ → ℕ → ℕ × List ℕ → ℕ × List ℕ
  | [], peso_atual, valor_atual, selecao_atual, valor_restante, st =>
    if valor_atual + valor_restante ≤ st.1 then st
    else if capacidade < peso_atual then st
    else if st.1 < valor_atual then (valor_atual, selecao_atual) else st
  | it :: rest, peso_atual, valor_atual, selecao_atual, valor_restante, st =>
    if valor_atual + valor_restante ≤ st.1 then st
    else if capacidade < peso_atual then st
    else
      let st1 :=
        if peso_atual + it.peso ≤ capacidade then
          backtrack capacidade rest (peso_atual + it.peso) (valor_atual + it.valor)
            (selecao_atual ++ [it.indice]) (valor_restante - it.valor) st
        else st
      backtrack capacidade rest peso_atual valor_atual selecao_atual
        (valor_restante - it.valor) st1

/-- Function `knapsack_backtracking(capacidade, pesos, valores)` from
backtracking.cpp: build the items (accumulating `valor_total`), sort them
by descending density, run `backtrack`, and sort the best selection
ascending before returning. -/

def knapsack_backtracking (capacidade : ℕ) (pesos valores : List ℕ) :
    ℕ × List ℕ :=
  let itens := sortItens (mkItens pesos valores)
  let valor_total := ((mkItens pesos valores).map Item.valor).sum
  let res := backtrack capacidade itens 0 0 [] valor_total (0, [])
  (res.1, List.insertionSort (fun a b => a ≤ b) res.2)

/-!
## The branch-and-bound solver

`knapsack_branch_and_bound` from branch_and_bound.cpp explores a decision
tree over the density-sorted items with a `std::priority_queue` keyed by
the fractional upper bound `limitante`.  The queue is embedded as a list
kept sorted by non-increasing `limitante` (`pushNo` is an ordered insert),
so the head is always a node of maximal bound — a refinement of the C++
max-heap, whose choice among equal bounds is unspecified.  One iteration
of the `while` loop is the function `bb_step` (split into the include and
exclude halves of the loop body), and the loop itself is `bb_run`, which
terminates because every iteration strictly decreases a weighted node
count of the queue. -/

structure No where
  nivel : ℕ
  lucro : ℕ
  peso : ℕ
  limitante : ℚ
  selecionados : List Bool
deriving DecidableEq

/-- Rational addition written out on numerators and denominators.  It
equals `+` on `ℚ` (`qadd_eq`); `Rat.add` itself is `@[irreducible]`, so
this form is used inside the executable definitions to keep them
evaluable by the kernel. -/

def qadd (a b : ℚ) : ℚ := mkRat (a.num * b.den + b.num * a.den) (a.den * b.den)

/-- Rational multiplication written out on numerators and denominators;
equals `*` on `ℚ` (`qmul_eq`). -/

def qmul (a b : ℚ) : ℚ := mkRat (a.num * b.num) (a.den * b.den)

/-- The greedy loop of `calcular_limitante`: take whole items from the
current level while they fit, then add the capacity-filling fraction of
the first item that does not fit. -/

def limitante_aux (capacidade : ℕ) : ℕ → ℚ → List Item → ℚ
  | _, lim, [] => lim
  | peso_atual, lim, it :: rest =>
    if peso_atual + it.peso ≤ capacidade then
      limitante_aux capacidade (peso_atual + it.peso) (qadd lim (it.valor : ℚ)) rest
    else qadd lim (qmul (((capacidade - peso_atual : ℕ) : ℚ)) it.razao)

/-- Function `calcular_limitante(no, itens, capacidade)` from branch_and_bound.cpp:
`0` for an infeasible node, otherwise the node profit plus the greedy
fractional completion over the items from `no.nivel` on. -/

def calcular_limitante (no : No) (itens : List Item) (capacidade : ℕ) : ℚ :=
  if capacidade < no.peso then 0
  else limitante_aux capacidade no.peso (no.lucro : ℚ) (itens.drop no.nivel)

/-- The loop state of `knapsack_branch_and_bound`: the priority queue and
the incumbent. -/

structure BBState where
  fila : List No
  lucro_maximo : ℕ
  melhor_solucao : List Bool
deriving DecidableEq

/-- Priority-queue push, keeping the queue sorted by non-increasing
`limitante`. -/

def pushNo (no : No) (fila : List No) : List No :=
  List.orderedInsert (fun a b => b.limitante ≤ a.limitante) no fila

/-- The default `Item` used by out-of-range `getD` reads; the search never
reads out of range (children are only generated at levels `< n`). -/

def itemAt (itens : List Item) (k : ℕ) : Item := itens.getD k ⟨1, 0, 0⟩

/-- Node `no_incluir` before its bound is computed: descend one level taking
the item at the current level, marking its original index. -/

def noIncluir0 (itens : List Item) (no : No) : No :=
  ⟨no.nivel + 1, no.lucro + (itemAt itens no.nivel).valor,
   no.peso + (itemAt itens no.nivel).peso, 0,
   no.selecionados.set (itemAt itens no.nivel).indice true⟩

/-- Node `no_incluir` with its bound filled in (the C++ computes the bound only
inside the feasibility branch; outside it the node is dropped unused, so
filling the field unconditionally is harmless). -/

def noIncluir (itens : List Item) (capacidade : ℕ) (no : No) : No :=
  { noIncluir0 itens no with
      limitante := calcular_limitante (noIncluir0 itens no) itens capacidade }

/-- Node `no_excluir`: descend one level skipping the item, bound recomputed
(`calcular_limitante` does not read the stale `limitante` field). -/

def noExcluir (itens : List Item) (capacidade : ℕ) (no : No) : No :=
  ⟨no.nivel + 1, no.lucro, no.peso,
   calcular_limitante ⟨no.nivel + 1, no.lucro, no.peso, no.limitante,
     no.selecionados⟩ itens capacidade,
   no.selecionados⟩

/-- The include half of the loop body: if the include child fits, update
the incumbent when it is a strictly better complete solution, and push it
when its bound beats the (possibly updated) incumbent. -/

def bb_include (itens : List Item) (capacidade : ℕ) (no : No)
    (resto : List No) (lm : ℕ) (ms : List Bool) : List No × ℕ × List Bool :=
  let incl := noIncluir itens capacidade no
  if incl.peso ≤ capacidade then
    let lm1 := if incl.nivel = itens.length ∧ lm < incl.lucro ∧
        incl.peso ≤ capacidade then incl.lucro else lm
    let ms1 := if incl.nivel = itens.length ∧ lm < incl.lucro ∧
        incl.peso ≤ capacidade then incl.selecionados else ms
    if (lm1 : ℚ) < incl.limitante then (pushNo incl resto, lm1, ms1)
    else (resto, lm1, ms1)
  else (resto, lm, ms)

/-- The exclude half of the loop body: push the exclude child when its
bound beats the incumbent left by the include half. -/

def bb_exclude (itens : List Item) (capacidade : ℕ) (no : No)
    (s1 : List No × ℕ × List Bool) : BBState :=
  let excl := noExcluir itens capacidade no
  if (s1.2.1 : ℚ) < excl.limitante then ⟨pushNo excl s1.1, s1.2.1, s1.2.2⟩
  else ⟨s1.1, s1.2.1, s1.2.2⟩

/-- One iteration of the branch-and-bound `while` loop: pop the node with
the maximal bound, then prune it, finish it, or expand it.  The
`nivel == n` test of the code is rendered as `n ≤ nivel`; the two agree on
every node that ever enters the queue, whose level never exceeds `n`. -/

def bb_step (itens : List Item) (capacidade : ℕ) : BBState → BBState
  | ⟨[], lm, ms⟩ => ⟨[], lm, ms⟩
  | ⟨no :: resto, lm, ms⟩ =>
    if no.limitante ≤ (lm : ℚ) then ⟨resto, lm, ms⟩
    else if itens.length ≤ no.nivel then
      if lm < no.lucro then ⟨resto, no.lucro, no.selecionados⟩
      else ⟨resto, lm, ms⟩
    else bb_exclude itens capacidade no
      (bb_include itens capacidade no resto lm ms)

/-- Termination measure: each node weighs `3 ^ (n + 1 - nivel)`. -/

def noMedida (n : ℕ) (no : No) : ℕ := 3 ^ (n + 1 - no.nivel)

def filaMedida (n : ℕ) (fila : List No) : ℕ := (fila.map (noMedida n)).sum

/-- The branch-and-bound `while` loop, iterated on an explicit step
budget.  The budget only has to be at least the queue measure: the
measure strictly decreases per iteration and is positive on a non-empty
queue, so the loop reaches the empty queue before the budget runs out
(`bb_run_fuel_inv`). -/

def bb_run_fuel (itens : List Item) (capacidade : ℕ) :
    ℕ → BBState → BBState
  | 0, s => s
  | k + 1, s =>
    if s.fila = [] then s
    else bb_run_fuel itens capacidade k (bb_step itens capacidade s)

/-- The branch-and-bound `while` loop: iterate until the queue empties,
which provably happens within `filaMedida` iterations. -/

def bb_run (itens : List Item) (capacidade : ℕ) (s : BBState) : BBState :=
  bb_run_fuel itens capacidade (filaMedida itens.length s.fila) s

/-- Function `knapsack_branch_and_bound(capacidade, pesos, valores)` from
branch_and_bound.cpp: build and density-sort the items, push the root
node, run the best-first loop, and read the selected original indices off
the incumbent's boolean selection vector in ascending order. -/

def knapsack_branch_and_bound (capacidade : ℕ) (pesos valores : List ℕ) :
    ℕ × List ℕ :=
  let n := pesos.length
  let itens := sortItens (mkItens pesos valores)
  let raiz : No :=
    ⟨0, 0, 0,
      calcular_limitante ⟨0, 0, 0, 0, List.replicate n false⟩ itens capacidade,
      List.replicate n false⟩
  let final := bb_run itens capacidade ⟨[raiz], 0, List.replicate n false⟩
  (final.lucro_maximo,
   (List.range n).filter fun i => final.melhor_solucao.getD i false)

/-!
## Validity of the fractional bound

`calcular_limitante` equals the node profit plus the greedy fractional
relaxation value of the remaining capacity over the remaining
(density-sorted) items; that relaxation dominates the value of every
feasible completion. -/

/-- The greedy fractional value with rational budget `B`: whole items
while they fit, then the budget-filling fraction of the first item that
does not fit. -/

def greedyFrac (B : ℚ) : List Item → ℚ
  | [] => 0
  | it :: rest =>
    if (it.peso : ℚ) ≤ B then (it.valor : ℚ) + greedyFrac (B - (it.peso : ℚ)) rest
    else B * it.razao

/-- The best completion value of a feasible node. -/

def bestNo (capacidade : ℕ) (itens : List Item) (no : No) : ℕ :=
  no.lucro + optVal (capacidade - no.peso) (pairsOf (itens.drop no.nivel))

/-- A node of the search tree is coherent: its profit and weight are the
sums over a sub-selection of the first `nivel` (sorted) items, it is
feasible, and its boolean vector marks exactly the original indices of
that sub-selection. -/

def NodeOk (capacidade n : ℕ) (itens : List Item) (no : No) : Prop :=
  ∃ S : List Item, S.Sublist (itens.take no.nivel) ∧
    no.lucro = (S.map Item.valor).sum ∧
    no.peso = (S.map Item.peso).sum ∧
    no.peso ≤ capacidade ∧
    no.nivel ≤ itens.length ∧
    no.selecionados.length = n ∧
    ∀ j : ℕ, no.selecionados.getD j false = true ↔ j ∈ S.map Item.indice

/-- The incumbent is coherent: its value is attained by a feasible
sub-selection whose original indices are exactly the marked ones. -/

def MsOk (capacidade n : ℕ) (itens : List Item) (lm : ℕ) (ms : List Bool) :
    Prop :=
  ∃ S : List Item, S.Sublist itens ∧
    lm = (S.map Item.valor).sum ∧
    (S.map Item.peso).sum ≤ capacidade ∧
    ms.length = n ∧
    ∀ j : ℕ, ms.getD j false = true ↔ j ∈ S.map Item.indice

/-- Assumptions on the preprocessed item list: density-sorted, weights at
least 1, original indices in range and distinct. -/

def ItensOk (n : ℕ) (itens : List Item) : Prop :=
  itens.Pairwise (fun a b => b.razao ≤ a.razao) ∧
  (∀ it ∈ itens, 1 ≤ it.peso) ∧
  (∀ it ∈ itens, it.indice < n) ∧
  (itens.map Item.indice).Nodup

/-- The loop invariant of the search: every queued node is coherent and
carries a valid bound, the incumbent is coherent, and the global optimum
is either already attained by the incumbent or reachable from some queued
node. -/

def BBInv (capacidade n : ℕ) (itens : List Item) (s : BBState) : Prop :=
  (∀ no ∈ s.fila, NodeOk capacidade n itens no ∧
    ((bestNo capacidade itens no : ℕ) : ℚ) ≤ no.limitante) ∧
  MsOk capacidade n itens s.lucro_maximo s.melhor_solucao ∧
  (optVal capacidade (pairsOf itens) ≤ s.lucro_maximo ∨
    ∃ no ∈ s.fila, optVal capacidade (pairsOf itens) ≤ bestNo capacidade itens no)

instance instItemRazaoTotal : IsTotal Item fun a b => b.razao ≤ a.razao :=
  ⟨fun a b => le_total b.razao a.razao⟩

instance instItemRazaoTrans : IsTrans Item fun a b => b.razao ≤ a.razao :=
  ⟨fun _ _ _ hab hbc => le_trans hbc hab⟩

/-!
## Frame property of `knapsack_branch_and_bound`

The C++ function receives `pesos` and `valores` by non-const reference but
only ever reads them — in the item-building loop
`for i: itens.emplace_back(pesos[i], valores[i], i)`.  We model that loop
with the two vectors threaded through as explicit state, then run the
rest of the algorithm unchanged, and show the final vector state equals
the initial one. -/

def bb_build_loop (idxs : List ℕ) (st : List Item × List ℕ × List ℕ) :
    List Item × List ℕ × List ℕ :=
  idxs.foldl
    (fun st i =>
      (st.1 ++ [⟨st.2.1.getD i 0, st.2.2.getD i 0, i⟩], st.2.1, st.2.2)) st

/-- Function `knapsack_branch_and_bound` with the by-reference vectors threaded as
state, returning their final contents alongside the usual result. -/

def knapsack_branch_and_bound_state (capacidade : ℕ)
    (pesos valores : List ℕ) : (ℕ × List ℕ) × List ℕ × List ℕ :=
  let n := pesos.length
  let built := bb_build_loop (List.range n) ([], pesos, valores)
  let itens := sortItens built.1
  let raiz : No :=
    ⟨0, 0, 0,
      calcular_limitante ⟨0, 0, 0, 0, List.replicate n false⟩ itens capacidade,
      List.replicate n false⟩
  let final := bb_run itens capacidade ⟨[raiz], 0, List.replicate n false⟩
  ((final.lucro_maximo,
    (List.range n).filter fun i => final.melhor_solucao.getD i false),
   built.2.1, built.2.2)

set_option maxRecDepth 100000

theorem optVal_nil (cap : ℕ) : optVal cap [] = 0 := rfl

theorem optVal_cons (cap p v : ℕ) (rest : List (ℕ × ℕ)) :
    optVal cap ((p, v) :: rest) =
      if p ≤ cap then max (v + optVal (cap - p) rest) (optVal cap rest)
      else optVal cap rest := rfl

/-- The optimum is monotone in the capacity. -/

theorem optVal_mono_cap {c₁ c₂ : ℕ} (h : c₁ ≤ c₂) :
    ∀ l : List (ℕ × ℕ), optVal c₁ l ≤ optVal c₂ l := by
  intro l
  induction l generalizing c₁ c₂ with
  | nil => simp [optVal]
  | cons x rest ih =>
    obtain ⟨p, v⟩ := x
    rw [optVal_cons, optVal_cons]
    by_cases h₁ : p ≤ c₁
    · have h₂ : p ≤ c₂ := le_trans h₁ h
      simp only [h₁, h₂, if_true]
      exact max_le_max (Nat.add_le_add_left (ih (by omega)) v) (ih h)
    · by_cases h₂ : p ≤ c₂
      · simp only [h₁, h₂, if_true, if_false]
        exact le_trans (ih h) (le_max_right _ _)
      · simp only [h₁, h₂, if_false]
        exact ih h

/-- The optimum never exceeds the total value of all the items. -/

theorem optVal_le_total (cap : ℕ) :
    ∀ l : List (ℕ × ℕ), optVal cap l ≤ (l.map Prod.snd).sum := by
  intro l
  induction l generalizing cap with
  | nil => simp [optVal]
  | cons x rest ih =>
    obtain ⟨p, v⟩ := x
    rw [optVal_cons]
    by_cases h : p ≤ cap
    · simp only [h, if_true, List.map_cons, List.sum_cons]
      exact max_le (Nat.add_le_add_left (ih _) v) (le_trans (ih cap) (Nat.le_add_left _ _))
    · simp only [h, if_false, List.map_cons, List.sum_cons]
      exact le_trans (ih cap) (Nat.le_add_left _ _)

/-- Every feasible sublist is a lower bound for the optimum. -/

theorem le_optVal_of_sublist {S l : List (ℕ × ℕ)} (hs : S.Sublist l) :
    ∀ cap : ℕ, (S.map Prod.fst).sum ≤ cap → (S.map Prod.snd).sum ≤ optVal cap l := by
  induction hs with
  | slnil => intro cap _; simp
  | cons x _ ih =>
    intro cap hw
    obtain ⟨p, v⟩ := x
    rw [optVal_cons]
    by_cases h : p ≤ cap
    · simp only [h, if_true]
      exact le_trans (ih cap hw) (le_max_right _ _)
    · simpa [h] using ih cap hw
  | cons₂ x hsub ih =>
    intro cap hw
    obtain ⟨p, v⟩ := x
    simp only [List.map_cons, List.sum_cons] at hw ⊢
    have hp : p ≤ cap := le_trans (Nat.le_add_right _ _) hw
    rw [optVal_cons]
    simp only [hp, if_true]
    exact le_trans (Nat.add_le_add_left (ih (cap - p) (by omega)) v) (le_max_left _ _)

/-- The optimum does not depend on the order of the item list. -/

theorem optVal_perm {l₁ l₂ : List (ℕ × ℕ)} (h : l₁.Perm l₂) :
    ∀ cap : ℕ, optVal cap l₁ = optVal cap l₂ := by
  induction h with
  | nil => intro cap; rfl
  | cons x _ ih =>
    intro cap
    obtain ⟨p, v⟩ := x
    rw [optVal_cons, optVal_cons, ih cap, ih (cap - p)]
  | swap x y l =>
    intro cap
    obtain ⟨p, v⟩ := x
    obtain ⟨q, w⟩ := y
    simp only [optVal_cons]
    by_cases hq : q ≤ cap <;> by_cases hp : p ≤ cap
    · have e₁ : cap - q - p = cap - p - q := by omega
      by_cases hpq : p + q ≤ cap
      · have h₁ : p ≤ cap - q := by omega
        have h₂ : q ≤ cap - p := by omega
        simp only [hp, hq, h₁, h₂, if_true, e₁]
        omega
      · have h₁ : ¬ p ≤ cap - q := by omega
        have h₂ : ¬ q ≤ cap - p := by omega
        simp only [hp, hq, h₁, h₂, if_true, if_false]
        omega
    · have h₂ : ¬ p ≤ cap - q := by omega
      simp only [hp, hq, h₂, if_true, if_false]
    · have h₁ : ¬ q ≤ cap - p := by omega
      simp only [hp, hq, h₁, if_true, if_false]
    · simp only [hp, hq, if_false]
  | trans _ _ ih₁ ih₂ => intro cap; rw [ih₁ cap, ih₂ cap]

/-- Peeling the last item off the list instead of the first one. -/

theorem optVal_append_singleton (p v : ℕ) :
    ∀ (l : List (ℕ × ℕ)) (cap : ℕ),
      optVal cap (l ++ [(p, v)]) =
        if p ≤ cap then max (optVal cap l) (v + optVal (cap - p) l)
        else optVal cap l := by
  intro l
  induction l with
  | nil =>
    intro cap
    by_cases h : p ≤ cap <;> simp [optVal, h]
  | cons x rest ih =>
    intro cap
    obtain ⟨q, w⟩ := x
    rw [List.cons_append, optVal_cons, optVal_cons, ih, ih]
    by_cases hq : q ≤ cap
    · by_cases hpq : p + q ≤ cap
      · have h₁ : p ≤ cap - q := by omega
        have hp : p ≤ cap := by omega
        have h₂ : q ≤ cap - p := by omega
        have e₁ : cap - q - p = cap - p - q := by omega
        simp only [hq, hp, h₁, h₂, if_true, optVal_cons, e₁]
        omega
      · by_cases hp : p ≤ cap
        · have h₁ : ¬ p ≤ cap - q := by omega
          have h₂ : ¬ q ≤ cap - p := by omega
          simp only [hq, hp, h₁, h₂, if_true, if_false, optVal_cons]
          omega
        · have h₁ : ¬ p ≤ cap - q := by omega
          simp only [hq, hp, h₁, if_true, if_false, optVal_cons]
    · by_cases hp : p ≤ cap
      · have h₂ : q ≤ cap → False := fun h => hq h
        simp only [hq, hp, if_true, if_false, optVal_cons]
        by_cases h₃ : q ≤ cap - p
        · omega
        · simp only [h₃, if_false]
      · simp only [hq, hp, if_false, optVal_cons]

/-- The DP table agrees with the specification optimum on item prefixes. -/

theorem tabela_eq_optVal (pesos valores : List ℕ)
    (hlen : pesos.length = valores.length) :
    ∀ i, i ≤ pesos.length → ∀ w,
      tabela pesos valores i w = optVal w ((pesos.zip valores).take i) := by
  intro i
  induction i with
  | zero => intro _ w; simp [tabela, optVal]
  | succ i ih =>
    intro hi w
    have hi' : i < pesos.length := by omega
    have hiv : i < valores.length := by omega
    have hzip : i < (pesos.zip valores).length := by
      simp [List.length_zip]; omega
    have htake : (pesos.zip valores).take (i + 1) =
        (pesos.zip valores).take i ++ [(pesos.getD i 0, valores.getD i 0)] := by
      rw [List.take_succ]
      congr 1
      rw [List.getElem?_eq_getElem hzip]
      simp [List.getElem_zip, List.getD_eq_getElem?_getD,
        List.getElem?_eq_getElem hi', List.getElem?_eq_getElem hiv]
    rw [htake, optVal_append_singleton]
    show tabela pesos valores (i + 1) w = _
    rw [tabela]
    by_cases h : pesos.getD i 0 ≤ w
    · simp only [h, if_true, ih (by omega) w, ih (by omega) (w - pesos.getD i 0)]
      omega
    · simp only [h, if_false, ih (by omega) w]

/-- The value returned by the 2D DP solver is the specification optimum. -/

theorem knapsack_dynamic_programming_optVal (capacidade : ℕ)
    (pesos valores : List ℕ) (hlen : pesos.length = valores.length) :
    (knapsack_dynamic_programming capacidade pesos valores).1 =
      optVal capacidade (pesos.zip valores) := by
  show tabela pesos valores pesos.length capacidade = _
  rw [tabela_eq_optVal pesos valores hlen pesos.length (le_refl _) capacidade]
  congr 1
  exact List.take_of_length_le (by simp [List.length_zip, hlen])

/-!
## Properties of the 2D reconstruction
-/

/-- When the table rows differ, the item fits and the table entry comes from
including it. -/

theorem tabela_succ_of_ne (pesos valores : List ℕ) (i w : ℕ)
    (h : tabela pesos valores (i + 1) w ≠ tabela pesos valores i w) :
    pesos.getD i 0 ≤ w ∧
      tabela pesos valores (i + 1) w =
        tabela pesos valores i (w - pesos.getD i 0) + valores.getD i 0 := by
  rw [tabela] at h ⊢
  by_cases hp : pesos.getD i 0 ≤ w
  · simp only [hp, if_true] at h ⊢
    refine ⟨trivial, ?_⟩
    omega
  · simp only [hp, if_false] at h
    exact absurd rfl h

/-- The weights of the selection traced back by the 2D DP never exceed the
residual capacity the trace started from. -/

theorem reconstruct_weight_le (pesos valores : List ℕ) :
    ∀ i w, ((reconstruct pesos valores i w).map (fun j => pesos.getD j 0)).sum ≤ w := by
  intro i
  induction i with
  | zero => intro w; simp [reconstruct]
  | succ i ih =>
    intro w
    rw [reconstruct]
    by_cases h : tabela pesos valores (i + 1) w ≠ tabela pesos valores i w
    · obtain ⟨hp, _⟩ := tabela_succ_of_ne pesos valores i w h
      rw [if_pos h]
      simp only [List.map_cons, List.sum_cons]
      have := ih (w - pesos.getD i 0)
      omega
    · rw [if_neg h]
      exact ih w

/-- Every index traced back from row `i` is below `i`. -/

theorem reconstruct_mem_lt (pesos valores : List ℕ) :
    ∀ i w j, j ∈ reconstruct pesos valores i w → j < i := by
  intro i
  induction i with
  | zero => intro w j hj; simp [reconstruct] at hj
  | succ i ih =>
    intro w j hj
    rw [reconstruct] at hj
    by_cases h : tabela pesos valores (i + 1) w ≠ tabela pesos valores i w
    · rw [if_pos h] at hj
      rcases List.mem_cons.mp hj with rfl | hj
      · omega
      · exact lt_trans (ih _ j hj) (Nat.lt_succ_self i)
    · rw [if_neg h] at hj
      exact lt_trans (ih _ j hj) (Nat.lt_succ_self i)

/-- The 2D reconstruction produces its indices in strictly descending
order (they are pushed from item `n-1` down to item `0`). -/

theorem reconstruct_descending (pesos valores : List ℕ) :
    ∀ i w, (reconstruct pesos valores i w).Pairwise (fun a b => b < a) := by
  intro i
  induction i with
  | zero => intro w; simp [reconstruct]
  | succ i ih =>
    intro w
    rw [reconstruct]
    by_cases h : tabela pesos valores (i + 1) w ≠ tabela pesos valores i w
    · rw [if_pos h]
      exact List.Pairwise.cons (fun j hj => reconstruct_mem_lt pesos valores i _ j hj) (ih _)
    · rw [if_neg h]
      exact ih _

theorem mem_descList {capacidade p x : ℕ} :
    x ∈ descList capacidade p ↔ p ≤ x ∧ x ≤ capacidade := by
  unfold descList
  rw [List.mem_reverse, List.mem_range'_1]
  omega

theorem descList_pairwise (capacidade p : ℕ) :
    (descList capacidade p).Pairwise (fun a b => b < a) := by
  unfold descList
  rw [List.pairwise_reverse]
  exact List.pairwise_lt_range' p _

/-- Since the inner loop visits positions in strictly descending order, every
read `tabela[w - p]` (and the compared `tabela[w]`) still holds the previous
row's value, so the loop realises the usual 2-row recurrence. -/

theorem loopW_fst (p v : ℕ) :
    ∀ (ws : List ℕ), ws.Pairwise (fun a b => b < a) →
      ∀ (tab : ℕ → ℕ) (sel : ℕ → Bool) (x : ℕ),
        (loopW p v ws (tab, sel)).1 x =
          if x ∈ ws then max (tab x) (v + tab (x - p)) else tab x := by
  intro ws
  induction ws with
  | nil => intro _ tab sel x; simp [loopW]
  | cons w rest ih =>
    intro hpw tab sel x
    have hlt : ∀ y ∈ rest, y < w := fun y hy => (List.pairwise_cons.mp hpw).1 y hy
    rw [loopW, ih (List.pairwise_cons.mp hpw).2]
    by_cases hx : x ∈ rest
    · have hxw : x < w := hlt x hx
      have h₁ : ¬(x = w ∧ tab w < v + tab (w - p)) := by
        rintro ⟨rfl, -⟩; omega
      have h₂ : ¬(x - p = w ∧ tab w < v + tab (w - p)) := by
        rintro ⟨he, -⟩; omega
      simp only [hx, if_true, List.mem_cons, or_true, h₁, h₂, if_false]
    · by_cases hxw : x = w
      · subst hxw
        simp only [hx, if_false, List.mem_cons, true_or, if_true,
          eq_self_iff_true, true_and]
        by_cases himp : tab x < v + tab (x - p)
        · simp only [himp, if_true]
          omega
        · simp only [himp, if_false]
          omega
      · simp only [hx, hxw, if_false, List.mem_cons, false_or, false_and]

/-- The 1D value row equals the 2D table row inside the capacity range. -/

theorem dp1row_fst_eq_tabela (capacidade : ℕ) (pesos valores : List ℕ) :
    ∀ i w, w ≤ capacidade →
      (dp1row capacidade pesos valores i).1 w = tabela pesos valores i w := by
  intro i
  induction i with
  | zero => intro w _; simp [dp1row, tabela]
  | succ i ih =>
    intro w hw
    rw [dp1row, loopW_fst _ _ _ (descList_pairwise _ _), tabela]
    by_cases hp : pesos.getD i 0 ≤ w
    · have hmem : w ∈ descList capacidade (pesos.getD i 0) := mem_descList.mpr ⟨hp, hw⟩
      simp only [hmem, if_true, hp, ih w hw, ih (w - pesos.getD i 0) (by omega)]
      omega
    · have hmem : w ∉ descList capacidade (pesos.getD i 0) := by
        rw [mem_descList]; omega
      simp only [hmem, if_false, hp, ih w hw]

/-- The two dynamic-programming variants return the same maximum value. -/

theorem dp_variants_same_value (capacidade : ℕ) (pesos valores : List ℕ) :
    (knapsack_dynamic_programming_optimized capacidade pesos valores).1 =
      (knapsack_dynamic_programming capacidade pesos valores).1 :=
  dp1row_fst_eq_tabela capacidade pesos valores pesos.length capacidade (le_refl _)

/-- Field `razao` is the exact quotient `valor / peso` (also for `peso = 0`,
where both sides are `0`). -/

theorem razao_eq_div (it : Item) :
    it.razao = (it.valor : ℚ) / (it.peso : ℚ) := by
  rw [Item.razao, Rat.mkRat_eq_div, Int.cast_natCast]

theorem pairsOf_map_snd (itens : List Item) :
    (pairsOf itens).map Prod.snd = itens.map Item.valor := by
  simp [pairsOf, List.map_map]

theorem pairsOf_map_fst (itens : List Item) :
    (pairsOf itens).map Prod.fst = itens.map Item.peso := by
  simp [pairsOf, List.map_map]

theorem sortItens_perm (itens : List Item) : (sortItens itens).Perm itens :=
  List.perm_insertionSort _ itens

theorem mkItens_pairsOf (pesos valores : List ℕ)
    (hlen : pesos.length = valores.length) :
    pairsOf (mkItens pesos valores) = pesos.zip valores := by
  apply List.ext_getElem
  · simp [pairsOf, mkItens, List.length_zip, hlen]
  · intro i h₁ h₂
    simp only [pairsOf, mkItens, List.getElem_map, List.getElem_range,
      List.getElem_zip]
    have hip : i < pesos.length := by
      simp [List.length_zip] at h₂; omega
    have hiv : i < valores.length := by
      simp [List.length_zip] at h₂; omega
    rw [List.getD_eq_getElem?_getD, List.getElem?_eq_getElem hip,
      List.getD_eq_getElem?_getD, List.getElem?_eq_getElem hiv]
    rfl

theorem mkItens_map_indice (pesos valores : List ℕ) :
    (mkItens pesos valores).map Item.indice = List.range pesos.length := by
  unfold mkItens
  rw [List.map_map]
  apply List.ext_getElem <;> simp

theorem mkItens_compat (pesos valores : List ℕ) :
    ∀ it ∈ mkItens pesos valores,
      pesos.getD it.indice 0 = it.peso ∧ valores.getD it.indice 0 = it.valor ∧
        it.indice < pesos.length := by
  intro it hit
  simp only [mkItens, List.mem_map, List.mem_range] at hit
  obtain ⟨i, hi, rfl⟩ := hit
  exact ⟨rfl, rfl, hi⟩

/-- The value computed by `backtrack` on the remaining items: the running
best, improved by the best feasible completion of the current partial
solution.  The pruning by `valor_restante` is conservative, so it does not
change the result. -/

theorem backtrack_fst (capacidade : ℕ) :
    ∀ (itens : List Item) (peso valor : ℕ) (sel : List ℕ) (st : ℕ × List ℕ),
      peso ≤ capacidade →
      (backtrack capacidade itens peso valor sel
          ((itens.map Item.valor).sum) st).1 =
        max st.1 (valor + optVal (capacidade - peso) (pairsOf itens)) := by
  intro itens
  induction itens with
  | nil =>
    intro peso valor sel st hpc
    simp only [backtrack, List.map_nil, List.sum_nil, Nat.add_zero, pairsOf,
      optVal_nil]
    have hnc : ¬ capacidade < peso := by omega
    by_cases h1 : valor ≤ st.1
    · simp only [h1, if_true]
      omega
    · simp only [h1, if_false, hnc, if_false]
      by_cases h2 : st.1 < valor
      · simp only [h2, if_true]
        omega
      · simp only [h2, if_false]
        omega
  | cons it rest ih =>
    intro peso valor sel st hpc
    simp only [backtrack, List.map_cons, List.sum_cons, Nat.add_sub_cancel_left]
    have hnc : ¬ capacidade < peso := by omega
    have hle : optVal (capacidade - peso) (pairsOf (it :: rest)) ≤
        it.valor + (rest.map Item.valor).sum := by
      have := optVal_le_total (capacidade - peso) (pairsOf (it :: rest))
      rwa [pairsOf_map_snd, List.map_cons, List.sum_cons] at this
    by_cases h1 : valor + (it.valor + (rest.map Item.valor).sum) ≤ st.1
    · simp only [h1, if_true]
      omega
    · simp only [h1, if_false, hnc, if_false]
      have hsplit : pairsOf (it :: rest) = (it.peso, it.valor) :: pairsOf rest := rfl
      by_cases hinc : peso + it.peso ≤ capacidade
      · simp only [hinc, if_true]
        rw [ih peso valor sel _ hpc,
          ih (peso + it.peso) (valor + it.valor) (sel ++ [it.indice]) st hinc]
        rw [hsplit, optVal_cons]
        have hfit : it.peso ≤ capacidade - peso := by omega
        have hsub : capacidade - (peso + it.peso) = capacidade - peso - it.peso := by
          omega
        simp only [hfit, if_true, hsub]
        omega
      · simp only [hinc, if_false]
        rw [ih peso valor sel st hpc, hsplit, optVal_cons]
        have hfit : ¬ it.peso ≤ capacidade - peso := by omega
        simp only [hfit, if_false]

/-- The value returned by `knapsack_backtracking` is the specification
optimum of the original instance. -/

theorem knapsack_backtracking_optVal (capacidade : ℕ) (pesos valores : List ℕ)
    (hlen : pesos.length = valores.length) :
    (knapsack_backtracking capacidade pesos valores).1 =
      optVal capacidade (pesos.zip valores) := by
  simp only [knapsack_backtracking]
  have hperm : (sortItens (mkItens pesos valores)).Perm (mkItens pesos valores) :=
    sortItens_perm _
  have hsum : ((mkItens pesos valores).map Item.valor).sum =
      ((sortItens (mkItens pesos valores)).map Item.valor).sum :=
    ((hperm.map Item.valor).sum_eq).symm
  rw [hsum, backtrack_fst capacidade _ 0 0 [] (0, []) (Nat.zero_le _)]
  have hpp : (pairsOf (sortItens (mkItens pesos valores))).Perm
      (pairsOf (mkItens pesos valores)) := hperm.map _
  rw [optVal_perm hpp (capacidade - 0), mkItens_pairsOf pesos valores hlen]
  simp

/-- Case analysis on the selection `backtrack` leaves in the state: it is
either untouched, or it is the working selection extended by the original
indices of a feasible sub-selection of the remaining items. -/

theorem backtrack_snd_cases (capacidade : ℕ) :
    ∀ (itens : List Item) (peso valor restante : ℕ) (sel : List ℕ)
      (st : ℕ × List ℕ),
      (backtrack capacidade itens peso valor sel restante st).2 = st.2 ∨
      ∃ S : List Item, S.Sublist itens ∧
        (backtrack capacidade itens peso valor sel restante st).2 =
          sel ++ S.map Item.indice ∧
        peso + (S.map Item.peso).sum ≤ capacidade := by
  intro itens
  induction itens with
  | nil =>
    intro peso valor restante sel st
    simp only [backtrack]
    by_cases h1 : valor + restante ≤ st.1
    · rw [if_pos h1]
      exact Or.inl rfl
    · rw [if_neg h1]
      by_cases h2 : capacidade < peso
      · rw [if_pos h2]
        exact Or.inl rfl
      · rw [if_neg h2]
        by_cases h3 : st.1 < valor
        · rw [if_pos h3]
          refine Or.inr ⟨[], List.nil_sublist _, by simp, ?_⟩
          simp only [List.map_nil, List.sum_nil, Nat.add_zero]
          omega
        · rw [if_neg h3]
          exact Or.inl rfl
  | cons it rest ih =>
    intro peso valor restante sel st
    simp only [backtrack]
    by_cases h1 : valor + restante ≤ st.1
    · rw [if_pos h1]
      exact Or.inl rfl
    · rw [if_neg h1]
      by_cases h2 : capacidade < peso
      · rw [if_pos h2]
        exact Or.inl rfl
      · rw [if_neg h2]
        by_cases hinc : peso + it.peso ≤ capacidade
        · rw [if_pos hinc]
          rcases ih peso valor (restante - it.valor) sel
              (backtrack capacidade rest (peso + it.peso) (valor + it.valor)
                (sel ++ [it.indice]) (restante - it.valor) st) with
            hout | ⟨S, hS, hout, hw⟩
          · rw [hout]
            rcases ih (peso + it.peso) (valor + it.valor) (restante - it.valor)
                (sel ++ [it.indice]) st with hin | ⟨S, hS, hin, hw⟩
            · exact Or.inl hin
            · refine Or.inr ⟨it :: S, List.Sublist.cons₂ it hS, ?_, ?_⟩
              · rw [hin, List.append_assoc]
                rfl
              · simp only [List.map_cons, List.sum_cons]
                omega
          · exact Or.inr ⟨S, hS.cons it, hout, hw⟩
        · rw [if_neg hinc]
          rcases ih peso valor (restante - it.valor) sel st with
            hout | ⟨S, hS, hout, hw⟩
          · exact Or.inl hout
          · exact Or.inr ⟨S, hS.cons it, hout, hw⟩

theorem pairwise_lt_of_le_nodup {l : List ℕ} (hs : l.Pairwise (· ≤ ·))
    (hn : l.Nodup) : l.Pairwise (· < ·) :=
  (hs.and hn).imp fun h => lt_of_le_of_ne h.1 h.2

/-- The selection returned by `knapsack_backtracking` is feasible,
strictly ascending (hence made of distinct indices), and within range. -/

theorem knapsack_backtracking_sel_props (capacidade : ℕ)
    (pesos valores : List ℕ) :
    (((knapsack_backtracking capacidade pesos valores).2).map
        (fun j => pesos.getD j 0)).sum ≤ capacidade ∧
    ((knapsack_backtracking capacidade pesos valores).2).Pairwise (· < ·) ∧
    (∀ j ∈ (knapsack_backtracking capacidade pesos valores).2,
      j < pesos.length) := by
  simp only [knapsack_backtracking]
  have hperm : (sortItens (mkItens pesos valores)).Perm (mkItens pesos valores) :=
    sortItens_perm _
  have hmem : ∀ it ∈ sortItens (mkItens pesos valores),
      pesos.getD it.indice 0 = it.peso ∧ it.indice < pesos.length := by
    intro it hit
    have h := mkItens_compat pesos valores it (hperm.mem_iff.mp hit)
    exact ⟨h.1, h.2.2⟩
  have hindnd : ((sortItens (mkItens pesos valores)).map Item.indice).Nodup := by
    have : ((sortItens (mkItens pesos valores)).map Item.indice).Perm
        ((mkItens pesos valores).map Item.indice) := hperm.map _
    rw [this.nodup_iff, mkItens_map_indice]
    exact List.nodup_range _
  have hsortperm : ∀ l : List ℕ,
      (List.insertionSort (fun a b => a ≤ b) l).Perm l := fun l =>
    List.perm_insertionSort _ l
  rcases backtrack_snd_cases capacidade (sortItens (mkItens pesos valores))
      0 0 (((mkItens pesos valores).map Item.valor).sum) [] (0, []) with
    h | ⟨S, hS, h, hw⟩
  · rw [h]
    simp
  · rw [h]
    simp only [List.nil_append]
    have hperm2 := hsortperm (S.map Item.indice)
    have hSmem : ∀ it ∈ S, it ∈ sortItens (mkItens pesos valores) :=
      fun it hit => hS.subset hit
    refine ⟨?_, ?_, ?_⟩
    · rw [(hperm2.map (fun j => pesos.getD j 0)).sum_eq, List.map_map]
      have : S.map ((fun j => pesos.getD j 0) ∘ Item.indice) = S.map Item.peso :=
        List.map_congr_left fun it hit => (hmem it (hSmem it hit)).1
      rw [this]
      omega
    · apply pairwise_lt_of_le_nodup
      · exact List.sorted_insertionSort _ _
      · rw [hperm2.nodup_iff]
        exact (hS.map Item.indice).nodup hindnd
    · intro j hj
      have : j ∈ S.map Item.indice := hperm2.mem_iff.mp hj
      obtain ⟨it, hit, rfl⟩ := List.mem_map.mp this
      exact (hmem it (hSmem it hit)).2

theorem qadd_eq (a b : ℚ) : qadd a b = a + b := (Rat.add_def' a b).symm

theorem qmul_eq (a b : ℚ) : qmul a b = a * b := by
  rw [qmul, Rat.mul_def]
  exact (Rat.normalize_eq_mkRat _).symm

/-- Membership in a pushed queue. -/

theorem mem_pushNo {x no : No} {fila : List No} :
    x ∈ pushNo no fila ↔ x = no ∨ x ∈ fila := by
  unfold pushNo
  rw [(List.perm_orderedInsert _ no fila).mem_iff, List.mem_cons]

/-- The queue produced by the include half: the tail of the popped queue,
possibly with the include child pushed — and pushed only when it fits. -/

theorem bb_include_fila (itens : List Item) (capacidade : ℕ) (no : No)
    (resto : List No) (lm : ℕ) (ms : List Bool) :
    (bb_include itens capacidade no resto lm ms).1 = resto ∨
      ((bb_include itens capacidade no resto lm ms).1 =
        pushNo (noIncluir itens capacidade no) resto ∧
        (noIncluir itens capacidade no).peso ≤ capacidade ∧
        (((bb_include itens capacidade no resto lm ms).2.1 : ℚ) <
          (noIncluir itens capacidade no).limitante)) := by
  unfold bb_include
  by_cases hpi : (noIncluir itens capacidade no).peso ≤ capacidade
  · rw [if_pos hpi]
    by_cases hupd : (noIncluir itens capacidade no).nivel = itens.length ∧
        lm < (noIncluir itens capacidade no).lucro ∧
        (noIncluir itens capacidade no).peso ≤ capacidade
    · rw [if_pos hupd]
      by_cases hpush : (((noIncluir itens capacidade no).lucro : ℕ) : ℚ) <
          (noIncluir itens capacidade no).limitante
      · rw [if_pos hpush]
        exact Or.inr ⟨rfl, hpi, hpush⟩
      · rw [if_neg hpush]
        exact Or.inl rfl
    · rw [if_neg hupd]
      by_cases hpush : ((lm : ℕ) : ℚ) < (noIncluir itens capacidade no).limitante
      · rw [if_pos hpush]
        exact Or.inr ⟨rfl, hpi, hpush⟩
      · rw [if_neg hpush]
        exact Or.inl rfl
  · rw [if_neg hpi]
    exact Or.inl rfl

/-- The incumbent produced by the include half: unchanged, or replaced by
the include child when it is a complete, feasible, strictly better
solution. -/

theorem bb_include_incumbent (itens : List Item) (capacidade : ℕ) (no : No)
    (resto : List No) (lm : ℕ) (ms : List Bool) :
    ((bb_include itens capacidade no resto lm ms).2.1 = lm ∧
      (bb_include itens capacidade no resto lm ms).2.2 = ms) ∨
    ((bb_include itens capacidade no resto lm ms).2.1 =
        (noIncluir itens capacidade no).lucro ∧
      (bb_include itens capacidade no resto lm ms).2.2 =
        (noIncluir itens capacidade no).selecionados ∧
      (noIncluir itens capacidade no).nivel = itens.length ∧
      lm < (noIncluir itens capacidade no).lucro ∧
      (noIncluir itens capacidade no).peso ≤ capacidade) := by
  unfold bb_include
  by_cases hpi : (noIncluir itens capacidade no).peso ≤ capacidade
  · rw [if_pos hpi]
    by_cases hupd : (noIncluir itens capacidade no).nivel = itens.length ∧
        lm < (noIncluir itens capacidade no).lucro ∧
        (noIncluir itens capacidade no).peso ≤ capacidade
    · simp only [if_pos hupd]
      by_cases hpush : (((noIncluir itens capacidade no).lucro : ℕ) : ℚ) <
          (noIncluir itens capacidade no).limitante
      · rw [if_pos hpush]
        exact Or.inr ⟨rfl, rfl, hupd.1, hupd.2.1, hupd.2.2⟩
      · rw [if_neg hpush]
        exact Or.inr ⟨rfl, rfl, hupd.1, hupd.2.1, hupd.2.2⟩
    · simp only [if_neg hupd]
      by_cases hpush : ((lm : ℕ) : ℚ) < (noIncluir itens capacidade no).limitante
      · rw [if_pos hpush]
        exact Or.inl ⟨rfl, rfl⟩
      · rw [if_neg hpush]
        exact Or.inl ⟨rfl, rfl⟩
  · rw [if_neg hpi]
    exact Or.inl ⟨rfl, rfl⟩

/-- The queue produced by the exclude half. -/

theorem bb_exclude_fila (itens : List Item) (capacidade : ℕ) (no : No)
    (s1 : List No × ℕ × List Bool) :
    (bb_exclude itens capacidade no s1).fila = s1.1 ∨
      ((bb_exclude itens capacidade no s1).fila =
        pushNo (noExcluir itens capacidade no) s1.1 ∧
        ((s1.2.1 : ℚ) < (noExcluir itens capacidade no).limitante)) := by
  unfold bb_exclude
  by_cases hpush : (s1.2.1 : ℚ) < (noExcluir itens capacidade no).limitante
  · rw [if_pos hpush]
    exact Or.inr ⟨rfl, hpush⟩
  · rw [if_neg hpush]
    exact Or.inl rfl

/-- The exclude half never touches the incumbent. -/

theorem bb_exclude_incumbent (itens : List Item) (capacidade : ℕ) (no : No)
    (s1 : List No × ℕ × List Bool) :
    (bb_exclude itens capacidade no s1).lucro_maximo = s1.2.1 ∧
      (bb_exclude itens capacidade no s1).melhor_solucao = s1.2.2 := by
  unfold bb_exclude
  by_cases hpush : (s1.2.1 : ℚ) < (noExcluir itens capacidade no).limitante
  · rw [if_pos hpush]
    exact ⟨rfl, rfl⟩
  · rw [if_neg hpush]
    exact ⟨rfl, rfl⟩

theorem noMedida_pos (n : ℕ) (no : No) : 0 < noMedida n no :=
  Nat.pos_pow_of_pos _ (by norm_num)

theorem filaMedida_pushNo (n : ℕ) (no : No) (fila : List No) :
    filaMedida n (pushNo no fila) = noMedida n no + filaMedida n fila := by
  unfold filaMedida pushNo
  rw [((List.perm_orderedInsert _ no fila).map (noMedida n)).sum_eq]
  simp

/-- Each loop iteration strictly decreases the queue measure. -/

theorem bb_step_medida (itens : List Item) (capacidade : ℕ) :
    ∀ s : BBState, s.fila ≠ [] →
      filaMedida itens.length (bb_step itens capacidade s).fila <
        filaMedida itens.length s.fila := by
  rintro ⟨fila, lm, ms⟩ h
  cases fila with
  | nil => exact absurd rfl h
  | cons no resto =>
    have hpos := noMedida_pos itens.length no
    have hmcons : filaMedida itens.length (no :: resto) =
        noMedida itens.length no + filaMedida itens.length resto := by
      simp [filaMedida]
    simp only [bb_step]
    by_cases hprune : no.limitante ≤ (lm : ℚ)
    · rw [if_pos hprune]
      simp only [hmcons]
      omega
    · rw [if_neg hprune]
      by_cases hterm : itens.length ≤ no.nivel
      · rw [if_pos hterm]
        by_cases hupd : lm < no.lucro
        · rw [if_pos hupd]
          simp only [hmcons]
          omega
        · rw [if_neg hupd]
          simp only [hmcons]
          omega
      · rw [if_neg hterm]
        have hchild : ∀ x : No, x.nivel = no.nivel + 1 →
            noMedida itens.length x = 3 ^ (itens.length - no.nivel) := by
          intro x hx
          rw [noMedida, hx]
          congr 1
          omega
        have hme : noMedida itens.length (noExcluir itens capacidade no) =
            3 ^ (itens.length - no.nivel) := hchild _ rfl
        have hmi : noMedida itens.length (noIncluir itens capacidade no) =
            3 ^ (itens.length - no.nivel) := hchild _ rfl
        have hparent : noMedida itens.length no =
            3 ^ (itens.length - no.nivel) * 3 := by
          rw [noMedida, show itens.length + 1 - no.nivel =
            (itens.length - no.nivel) + 1 by omega, pow_succ]
        have hcpos : 0 < (3 : ℕ) ^ (itens.length - no.nivel) :=
          Nat.pos_pow_of_pos _ (by norm_num)
        have hs1 : filaMedida itens.length
            ((bb_include itens capacidade no resto lm ms).1) ≤
            3 ^ (itens.length - no.nivel) + filaMedida itens.length resto := by
          rcases bb_include_fila itens capacidade no resto lm ms with
            h1 | ⟨h1, -, -⟩ <;> rw [h1]
          · omega
          · rw [filaMedida_pushNo, hmi]
        rcases bb_exclude_fila itens capacidade no
            (bb_include itens capacidade no resto lm ms) with h2 | ⟨h2, -⟩ <;>
          rw [h2]
        · omega
        · rw [filaMedida_pushNo, hme, hmcons, hparent]
          omega

theorem razao_nonneg (it : Item) : 0 ≤ it.razao := by
  rw [razao_eq_div]
  exact div_nonneg (Nat.cast_nonneg _) (Nat.cast_nonneg _)

theorem valor_eq_razao_mul {it : Item} (h : 1 ≤ it.peso) :
    (it.valor : ℚ) = it.razao * (it.peso : ℚ) := by
  have hp : (it.peso : ℚ) ≠ 0 := by
    have : (0 : ℚ) < (it.peso : ℚ) := by exact_mod_cast h
    exact ne_of_gt this
  rw [razao_eq_div, div_mul_cancel₀ _ hp]

/-- The greedy loop of `calcular_limitante` computes exactly the greedy
fractional value of the remaining budget. -/

theorem limitante_aux_eq_greedyFrac (capacidade : ℕ) :
    ∀ (itens : List Item) (peso : ℕ) (lim : ℚ), peso ≤ capacidade →
      limitante_aux capacidade peso lim itens =
        lim + greedyFrac ((capacidade : ℚ) - (peso : ℚ)) itens := by
  intro itens
  induction itens with
  | nil =>
    intro peso lim _
    simp [limitante_aux, greedyFrac]
  | cons it rest ih =>
    intro peso lim hpc
    have hiff : (it.peso : ℚ) ≤ (capacidade : ℚ) - (peso : ℚ) ↔
        peso + it.peso ≤ capacidade := by
      rw [le_sub_iff_add_le]
      norm_cast
      omega
    rw [limitante_aux, greedyFrac]
    by_cases hfit : peso + it.peso ≤ capacidade
    · rw [if_pos hfit, if_pos (hiff.mpr hfit), ih (peso + it.peso) _ hfit,
        qadd_eq]
      push_cast
      ring
    · rw [if_neg hfit, if_neg (fun h => hfit (hiff.mp h)), qadd_eq, qmul_eq]
      rw [Nat.cast_sub hpc]

/-- If every density in the list is at most `d`, the greedy fractional
value is at most `budget × d`. -/

theorem greedyFrac_le_mul (d : ℚ) (hd : 0 ≤ d) :
    ∀ (itens : List Item), (∀ it ∈ itens, it.razao ≤ d ∧ 1 ≤ it.peso) →
      ∀ B : ℚ, 0 ≤ B → greedyFrac B itens ≤ B * d := by
  intro itens
  induction itens with
  | nil =>
    intro _ B hB
    rw [greedyFrac]
    positivity
  | cons it rest ih =>
    intro h B hB
    obtain ⟨hdit, hpit⟩ := h it (List.mem_cons_self it rest)
    have hpos : (0 : ℚ) < (it.peso : ℚ) := by exact_mod_cast hpit
    rw [greedyFrac]
    by_cases hfit : (it.peso : ℚ) ≤ B
    · rw [if_pos hfit]
      have h₁ : greedyFrac (B - (it.peso : ℚ)) rest ≤ (B - (it.peso : ℚ)) * d :=
        ih (fun x hx => h x (List.mem_cons_of_mem it hx)) _ (by linarith)
      have h₂ : (it.valor : ℚ) ≤ (it.peso : ℚ) * d := by
        rw [valor_eq_razao_mul hpit]
        nlinarith [razao_nonneg it]
      nlinarith
    · rw [if_neg hfit]
      nlinarith [razao_nonneg it]

/-- Shifting budget `c` onto an item at least as dense as the whole list
cannot decrease the greedy fractional value by more than `c × d`. -/

theorem greedyFrac_shift (d : ℚ) (hd : 0 ≤ d) :
    ∀ (itens : List Item),
      itens.Pairwise (fun a b => b.razao ≤ a.razao) →
      (∀ it ∈ itens, it.razao ≤ d ∧ 1 ≤ it.peso) →
      ∀ B c : ℚ, 0 ≤ c → c ≤ B →
        greedyFrac B itens ≤ c * d + greedyFrac (B - c) itens := by
  intro itens
  induction itens with
  | nil =>
    intro _ _ B c hc _
    rw [greedyFrac, greedyFrac]
    nlinarith
  | cons jt rest ih =>
    intro hsorted h B c hc hcB
    obtain ⟨hdjt, hpjt⟩ := h jt (List.mem_cons_self jt rest)
    have hpos : (0 : ℚ) < (jt.peso : ℚ) := by exact_mod_cast hpjt
    have hrest : ∀ x ∈ rest, x.razao ≤ jt.razao ∧ 1 ≤ x.peso := by
      intro x hx
      exact ⟨(List.pairwise_cons.mp hsorted).1 x hx,
        (h x (List.mem_cons_of_mem jt hx)).2⟩
    rw [greedyFrac, greedyFrac]
    by_cases hfit₂ : (jt.peso : ℚ) ≤ B - c
    · have hfit₁ : (jt.peso : ℚ) ≤ B := by linarith
      rw [if_pos hfit₁, if_pos hfit₂]
      have := ih (List.pairwise_cons.mp hsorted).2
        (fun x hx => h x (List.mem_cons_of_mem jt hx))
        (B - (jt.peso : ℚ)) c hc (by linarith)
      have harg : B - (jt.peso : ℚ) - c = B - c - (jt.peso : ℚ) := by ring
      rw [harg] at this
      linarith
    · by_cases hfit₁ : (jt.peso : ℚ) ≤ B
      · rw [if_pos hfit₁, if_neg hfit₂]
        have hgb : greedyFrac (B - (jt.peso : ℚ)) rest ≤
            (B - (jt.peso : ℚ)) * jt.razao :=
          greedyFrac_le_mul jt.razao (razao_nonneg jt) rest hrest _ (by linarith)
        have hv : (jt.valor : ℚ) = jt.razao * (jt.peso : ℚ) :=
          valor_eq_razao_mul hpjt
        nlinarith [mul_nonneg (sub_nonneg.mpr hdjt)
          (by linarith : (0 : ℚ) ≤ (jt.peso : ℚ) + c - B)]
      · rw [if_neg hfit₁, if_neg (by intro h'; exact hfit₁ (by linarith))]
        nlinarith [mul_le_mul_of_nonneg_left hdjt hc]

/-- Dropping the head item never decreases the greedy fractional value by
more than the head's contribution: the greedy value of the tail is at most
the greedy value of the whole (density-sorted) list. -/

theorem greedyFrac_tail_le (it : Item) (rest : List Item)
    (hsorted : (it :: rest).Pairwise (fun a b => b.razao ≤ a.razao))
    (h : ∀ x ∈ it :: rest, 1 ≤ x.peso)
    (B : ℚ) (hB : 0 ≤ B) :
    greedyFrac B rest ≤ greedyFrac B (it :: rest) := by
  have hpit : 1 ≤ it.peso := h it (List.mem_cons_self it rest)
  have hpos : (0 : ℚ) < (it.peso : ℚ) := by exact_mod_cast hpit
  have hrest : ∀ x ∈ rest, x.razao ≤ it.razao ∧ 1 ≤ x.peso := by
    intro x hx
    exact ⟨(List.pairwise_cons.mp hsorted).1 x hx,
      h x (List.mem_cons_of_mem it hx)⟩
  rw [greedyFrac]
  by_cases hfit : (it.peso : ℚ) ≤ B
  · rw [if_pos hfit]
    have := greedyFrac_shift it.razao (razao_nonneg it) rest
      (List.pairwise_cons.mp hsorted).2 hrest B (it.peso : ℚ)
      (le_of_lt hpos) hfit
    rw [valor_eq_razao_mul hpit]
    linarith [this]
  · rw [if_neg hfit]
    exact greedyFrac_le_mul it.razao (razao_nonneg it) rest hrest B hB

/-- Every feasible sub-selection's value is dominated by the greedy
fractional value, for a density-sorted item list. -/

theorem sum_le_greedyFrac :
    ∀ {S itens : List Item}, S.Sublist itens →
      itens.Pairwise (fun a b => b.razao ≤ a.razao) →
      (∀ it ∈ itens, 1 ≤ it.peso) →
      ∀ B : ℚ, ((S.map Item.peso).sum : ℚ) ≤ B →
        ((S.map Item.valor).sum : ℚ) ≤ greedyFrac B itens := by
  intro S itens hsub
  induction hsub with
  | slnil =>
    intro _ _ B hB
    simp [greedyFrac]
  | @cons S rest it hsub ih =>
    intro hsorted hw B hB
    have hB0 : 0 ≤ B := by
      have : (0 : ℚ) ≤ ((S.map Item.peso).sum : ℚ) := by positivity
      linarith
    refine le_trans (ih (List.pairwise_cons.mp hsorted).2
      (fun x hx => hw x (List.mem_cons_of_mem it hx)) B hB) ?_
    exact greedyFrac_tail_le it rest hsorted hw B hB0
  | @cons₂ S rest it hsub ih =>
    intro hsorted hw B hB
    have hpit : 1 ≤ it.peso := hw it (List.mem_cons_self it rest)
    simp only [List.map_cons, List.sum_cons] at hB ⊢
    rw [Nat.cast_add] at hB ⊢
    have hS0 : (0 : ℚ) ≤ ((S.map Item.peso).sum : ℚ) := by positivity
    have hfit : (it.peso : ℚ) ≤ B := by linarith
    rw [greedyFrac, if_pos hfit]
    have := ih (List.pairwise_cons.mp hsorted).2
      (fun x hx => hw x (List.mem_cons_of_mem it hx))
      (B - (it.peso : ℚ)) (by linarith)
    linarith

/-- The optimum over an item list is attained by some feasible
sub-selection. -/

theorem optVal_pairsOf_achieved (cap : ℕ) :
    ∀ itens : List Item, ∃ S : List Item, S.Sublist itens ∧
      (S.map Item.peso).sum ≤ cap ∧
      optVal cap (pairsOf itens) = (S.map Item.valor).sum := by
  intro itens
  induction itens generalizing cap with
  | nil => exact ⟨[], List.Sublist.refl _, by simp, by simp [pairsOf, optVal]⟩
  | cons it rest ih =>
    have hsplit : pairsOf (it :: rest) = (it.peso, it.valor) :: pairsOf rest := rfl
    by_cases hfit : it.peso ≤ cap
    · obtain ⟨S₁, hS₁, hw₁, hv₁⟩ := ih (cap - it.peso)
      obtain ⟨S₂, hS₂, hw₂, hv₂⟩ := ih cap
      rw [hsplit, optVal_cons, if_pos hfit]
      by_cases hcmp : optVal cap (pairsOf rest) ≤
          it.valor + optVal (cap - it.peso) (pairsOf rest)
      · refine ⟨it :: S₁, List.Sublist.cons₂ it hS₁, ?_, ?_⟩
        · simp only [List.map_cons, List.sum_cons]
          omega
        · simp only [List.map_cons, List.sum_cons]
          omega
      · refine ⟨S₂, hS₂.cons it, hw₂, ?_⟩
        omega
    · obtain ⟨S₂, hS₂, hw₂, hv₂⟩ := ih cap
      rw [hsplit, optVal_cons, if_neg hfit]
      exact ⟨S₂, hS₂.cons it, hw₂, hv₂⟩

/-- Applying `calcular_limitante` with feasible node weight takes the greedy
branch, never the infeasibility branch. -/

theorem calcular_limitante_feasible {no : No} {itens : List Item}
    {capacidade : ℕ} (h : no.peso ≤ capacidade) :
    calcular_limitante no itens capacidade =
      limitante_aux capacidade no.peso (no.lucro : ℚ) (itens.drop no.nivel) :=
  if_neg (not_lt.mpr h)

/-- Validity of the upper bound: for a feasible node over density-sorted
items of weight at least 1, `calcular_limitante` dominates the node profit
plus the value of every feasible completion by items at positions
`≥ no.nivel`. -/

theorem calcular_limitante_ge (no : No) (itens : List Item) (capacidade : ℕ)
    (hsorted : itens.Pairwise (fun a b => b.razao ≤ a.razao))
    (hw : ∀ it ∈ itens, 1 ≤ it.peso)
    (hpc : no.peso ≤ capacidade)
    (S : List Item) (hS : S.Sublist (itens.drop no.nivel))
    (hfeas : no.peso + (S.map Item.peso).sum ≤ capacidade) :
    ((no.lucro + (S.map Item.valor).sum : ℕ) : ℚ) ≤
      calcular_limitante no itens capacidade := by
  rw [calcular_limitante_feasible hpc,
    limitante_aux_eq_greedyFrac capacidade _ no.peso _ hpc]
  have hsorted' : (itens.drop no.nivel).Pairwise (fun a b => b.razao ≤ a.razao) :=
    List.Pairwise.sublist (List.drop_sublist no.nivel itens) hsorted
  have hw' : ∀ it ∈ itens.drop no.nivel, 1 ≤ it.peso :=
    fun it hit => hw it ((List.drop_sublist no.nivel itens).subset hit)
  have hbudget : ((S.map Item.peso).sum : ℚ) ≤
      (capacidade : ℚ) - (no.peso : ℚ) := by
    rw [le_sub_iff_add_le]
    have h' : (S.map Item.peso).sum + no.peso ≤ capacidade := by omega
    exact_mod_cast h'
  have := sum_le_greedyFrac hS hsorted' hw' _ hbudget
  rw [Nat.cast_add]
  linarith

/-- The computed bound of a node dominates its best completion value. -/

theorem bestNo_le_limitante (no : No) (itens : List Item) (capacidade : ℕ)
    (hsorted : itens.Pairwise (fun a b => b.razao ≤ a.razao))
    (hw : ∀ it ∈ itens, 1 ≤ it.peso)
    (hpc : no.peso ≤ capacidade) :
    ((bestNo capacidade itens no : ℕ) : ℚ) ≤
      calcular_limitante no itens capacidade := by
  obtain ⟨S, hS, hw₀, hv₀⟩ :=
    optVal_pairsOf_achieved (capacidade - no.peso) (itens.drop no.nivel)
  rw [bestNo, hv₀]
  exact calcular_limitante_ge no itens capacidade hsorted hw hpc S hS (by omega)

/-!
## Loop invariants of the branch-and-bound search
-/

theorem noIncluir_nivel (itens : List Item) (capacidade : ℕ) (no : No) :
    (noIncluir itens capacidade no).nivel = no.nivel + 1 := rfl

theorem noIncluir_lucro (itens : List Item) (capacidade : ℕ) (no : No) :
    (noIncluir itens capacidade no).lucro =
      no.lucro + (itemAt itens no.nivel).valor := rfl

theorem noIncluir_peso (itens : List Item) (capacidade : ℕ) (no : No) :
    (noIncluir itens capacidade no).peso =
      no.peso + (itemAt itens no.nivel).peso := rfl

theorem noIncluir_selecionados (itens : List Item) (capacidade : ℕ) (no : No) :
    (noIncluir itens capacidade no).selecionados =
      no.selecionados.set (itemAt itens no.nivel).indice true := rfl

theorem noIncluir_limitante (itens : List Item) (capacidade : ℕ) (no : No) :
    (noIncluir itens capacidade no).limitante =
      calcular_limitante (noIncluir itens capacidade no) itens capacidade := rfl

theorem noExcluir_nivel (itens : List Item) (capacidade : ℕ) (no : No) :
    (noExcluir itens capacidade no).nivel = no.nivel + 1 := rfl

theorem noExcluir_lucro (itens : List Item) (capacidade : ℕ) (no : No) :
    (noExcluir itens capacidade no).lucro = no.lucro := rfl

theorem noExcluir_peso (itens : List Item) (capacidade : ℕ) (no : No) :
    (noExcluir itens capacidade no).peso = no.peso := rfl

theorem noExcluir_selecionados (itens : List Item) (capacidade : ℕ) (no : No) :
    (noExcluir itens capacidade no).selecionados = no.selecionados := rfl

theorem noExcluir_limitante (itens : List Item) (capacidade : ℕ) (no : No) :
    (noExcluir itens capacidade no).limitante =
      calcular_limitante (noExcluir itens capacidade no) itens capacidade := rfl

/-- Complete characterization of the queue after the include half: the
child is pushed exactly when it fits and its bound beats the incumbent
left by the half. -/

theorem bb_include_spec (itens : List Item) (capacidade : ℕ) (no : No)
    (resto : List No) (lm : ℕ) (ms : List Bool) :
    ((bb_include itens capacidade no resto lm ms).1 =
        pushNo (noIncluir itens capacidade no) resto ∧
      (noIncluir itens capacidade no).peso ≤ capacidade ∧
      (((bb_include itens capacidade no resto lm ms).2.1 : ℚ) <
        (noIncluir itens capacidade no).limitante)) ∨
    ((bb_include itens capacidade no resto lm ms).1 = resto ∧
      ((noIncluir itens capacidade no).peso ≤ capacidade →
        ¬(((bb_include itens capacidade no resto lm ms).2.1 : ℚ) <
          (noIncluir itens capacidade no).limitante))) := by
  unfold bb_include
  by_cases hpi : (noIncluir itens capacidade no).peso ≤ capacidade
  · simp only [if_pos hpi]
    by_cases hupd : (noIncluir itens capacidade no).nivel = itens.length ∧
        lm < (noIncluir itens capacidade no).lucro ∧
        (noIncluir itens capacidade no).peso ≤ capacidade
    · simp only [if_pos hupd]
      by_cases hpush : (((noIncluir itens capacidade no).lucro : ℕ) : ℚ) <
          (noIncluir itens capacidade no).limitante
      · rw [if_pos hpush]
        exact Or.inl ⟨rfl, hpi, hpush⟩
      · rw [if_neg hpush]
        exact Or.inr ⟨rfl, fun _ => hpush⟩
    · simp only [if_neg hupd]
      by_cases hpush : ((lm : ℕ) : ℚ) < (noIncluir itens capacidade no).limitante
      · rw [if_pos hpush]
        exact Or.inl ⟨rfl, hpi, hpush⟩
      · rw [if_neg hpush]
        exact Or.inr ⟨rfl, fun _ => hpush⟩
  · simp only [if_neg hpi]
    exact Or.inr ⟨by trivial, fun h => absurd h hpi⟩

/-- The include half never decreases the incumbent. -/

theorem bb_include_lm_le (itens : List Item) (capacidade : ℕ) (no : No)
    (resto : List No) (lm : ℕ) (ms : List Bool) :
    lm ≤ (bb_include itens capacidade no resto lm ms).2.1 := by
  rcases bb_include_incumbent itens capacidade no resto lm ms with
    ⟨h, -⟩ | ⟨h, -, -, hlt, -⟩
  · omega
  · omega

/-- Complete characterization of the queue after the exclude half. -/

theorem bb_exclude_spec (itens : List Item) (capacidade : ℕ) (no : No)
    (s1 : List No × ℕ × List Bool) :
    ((bb_exclude itens capacidade no s1).fila =
        pushNo (noExcluir itens capacidade no) s1.1 ∧
      ((s1.2.1 : ℚ) < (noExcluir itens capacidade no).limitante)) ∨
    ((bb_exclude itens capacidade no s1).fila = s1.1 ∧
      ¬((s1.2.1 : ℚ) < (noExcluir itens capacidade no).limitante)) := by
  unfold bb_exclude
  by_cases hpush : (s1.2.1 : ℚ) < (noExcluir itens capacidade no).limitante
  · rw [if_pos hpush]
    exact Or.inl ⟨rfl, hpush⟩
  · rw [if_neg hpush]
    exact Or.inr ⟨rfl, hpush⟩

theorem itemAt_lt {itens : List Item} {k : ℕ} (h : k < itens.length) :
    itemAt itens k = itens[k] := by
  rw [itemAt, List.getD_eq_getElem?_getD, List.getElem?_eq_getElem h]
  rfl

theorem take_succ_itemAt {itens : List Item} {k : ℕ} (h : k < itens.length) :
    itens.take (k + 1) = itens.take k ++ [itemAt itens k] := by
  rw [List.take_succ, List.getElem?_eq_getElem h, itemAt_lt h]
  rfl

theorem drop_cons_itemAt {itens : List Item} {k : ℕ} (h : k < itens.length) :
    itens.drop k = itemAt itens k :: itens.drop (k + 1) := by
  rw [List.drop_eq_getElem_cons h, itemAt_lt h]

theorem itemAt_mem {itens : List Item} {k : ℕ} (h : k < itens.length) :
    itemAt itens k ∈ itens := by
  rw [itemAt_lt h]
  exact List.getElem_mem h

/-- A terminal node's best completion is its own profit. -/

theorem bestNo_terminal {capacidade : ℕ} {itens : List Item} {no : No}
    (h : itens.length ≤ no.nivel) :
    bestNo capacidade itens no = no.lucro := by
  rw [bestNo, List.drop_eq_nil_of_le h]
  simp [pairsOf, optVal]

/-- An expandable feasible node's best completion is realized through its
include child (when that child fits) or its exclude child. -/

theorem bestNo_split {capacidade : ℕ} {itens : List Item} {no : No}
    (hlt : no.nivel < itens.length) (hpc : no.peso ≤ capacidade) :
    bestNo capacidade itens no =
      if no.peso + (itemAt itens no.nivel).peso ≤ capacidade then
        max (bestNo capacidade itens (noIncluir itens capacidade no))
          (bestNo capacidade itens (noExcluir itens capacidade no))
      else bestNo capacidade itens (noExcluir itens capacidade no) := by
  have hdrop := drop_cons_itemAt hlt
  have hpair : pairsOf (itens.drop no.nivel) =
      ((itemAt itens no.nivel).peso, (itemAt itens no.nivel).valor) ::
        pairsOf (itens.drop (no.nivel + 1)) := by
    rw [hdrop]
    rfl
  rw [bestNo, hpair, optVal_cons]
  have hbi : bestNo capacidade itens (noIncluir itens capacidade no) =
      no.lucro + (itemAt itens no.nivel).valor +
        optVal (capacidade - (no.peso + (itemAt itens no.nivel).peso))
          (pairsOf (itens.drop (no.nivel + 1))) := rfl
  have hbe : bestNo capacidade itens (noExcluir itens capacidade no) =
      no.lucro + optVal (capacidade - no.peso)
        (pairsOf (itens.drop (no.nivel + 1))) := rfl
  by_cases hfits : no.peso + (itemAt itens no.nivel).peso ≤ capacidade
  · have hfit' : (itemAt itens no.nivel).peso ≤ capacidade - no.peso := by omega
    rw [if_pos hfits, if_pos hfit', hbi, hbe]
    have : capacidade - no.peso - (itemAt itens no.nivel).peso =
        capacidade - (no.peso + (itemAt itens no.nivel).peso) := by omega
    rw [this]
    omega
  · have hfit' : ¬ (itemAt itens no.nivel).peso ≤ capacidade - no.peso := by
      omega
    rw [if_neg hfits, if_neg hfit', hbe]

/-- The incumbent invariant deduced from a node invariant. -/

theorem MsOk_of_NodeOk {capacidade n : ℕ} {itens : List Item} {no : No}
    (h : NodeOk capacidade n itens no) :
    MsOk capacidade n itens no.lucro no.selecionados := by
  obtain ⟨S, hS, hv, hw, hpc, -, hlen, hmark⟩ := h
  exact ⟨S, hS.trans (List.take_sublist _ _), hv, by omega, hlen, hmark⟩

/-- The incumbent never exceeds the optimum. -/

theorem MsOk_le_optVal {capacidade n : ℕ} {itens : List Item} {lm : ℕ}
    {ms : List Bool} (h : MsOk capacidade n itens lm ms) :
    lm ≤ optVal capacidade (pairsOf itens) := by
  obtain ⟨S, hS, hv, hw, -, -⟩ := h
  have h' : (pairsOf S).Sublist (pairsOf itens) := hS.map _
  have this := le_optVal_of_sublist h' capacidade
  rw [pairsOf_map_fst, pairsOf_map_snd] at this
  rw [hv]
  exact this hw

/-- The include child of a coherent node is coherent when it fits. -/

theorem NodeOk_noIncluir {capacidade n : ℕ} {itens : List Item}
    (hok : ItensOk n itens) {no : No}
    (hno : NodeOk capacidade n itens no) (hlt : no.nivel < itens.length)
    (hfits : (noIncluir itens capacidade no).peso ≤ capacidade) :
    NodeOk capacidade n itens (noIncluir itens capacidade no) := by
  obtain ⟨S, hS, hv, hw, hpc, hlev, hlen, hmark⟩ := hno
  obtain ⟨hsorted, hw1, hidx, hnd⟩ := hok
  have hidxn : (itemAt itens no.nivel).indice < n :=
    hidx _ (itemAt_mem hlt)
  refine ⟨S ++ [itemAt itens no.nivel], ?_, ?_, ?_, hfits, ?_, ?_, ?_⟩
  · rw [noIncluir_nivel, take_succ_itemAt hlt]
    exact hS.append (List.Sublist.refl _)
  · rw [noIncluir_lucro, hv]
    simp
  · rw [noIncluir_peso, hw]
    simp
  · rw [noIncluir_nivel]
    omega
  · rw [noIncluir_selecionados, List.length_set]
    exact hlen
  · intro j
    rw [noIncluir_selecionados, List.getD_eq_getElem?_getD, List.getElem?_set,
      List.map_append, List.mem_append]
    by_cases hj : (itemAt itens no.nivel).indice = j
    · rw [if_pos hj, if_pos (by omega : (itemAt itens no.nivel).indice <
        no.selecionados.length)]
      simp only [Option.getD_some]
      constructor
      · intro _
        right
        simp [← hj]
      · intro _
        trivial
    · rw [if_neg hj, ← List.getD_eq_getElem?_getD, hmark j]
      constructor
      · intro h
        exact Or.inl h
      · intro h
        rcases h with h | h
        · exact h
        · exfalso
          simp only [List.map_cons, List.map_nil, List.mem_singleton] at h
          exact hj h.symm

/-- The exclude child of a coherent node is coherent. -/

theorem NodeOk_noExcluir {capacidade n : ℕ} {itens : List Item} {no : No}
    (hno : NodeOk capacidade n itens no) (hlt : no.nivel < itens.length) :
    NodeOk capacidade n itens (noExcluir itens capacidade no) := by
  obtain ⟨S, hS, hv, hw, hpc, hlev, hlen, hmark⟩ := hno
  refine ⟨S, ?_, hv, hw, hpc, ?_, hlen, hmark⟩
  · rw [noExcluir_nivel, take_succ_itemAt hlt]
    exact hS.trans (List.sublist_append_left _ _)
  · rw [noExcluir_nivel]
    omega

/-- The tail of the popped queue survives the include half. -/

theorem bb_include_mem (itens : List Item) (capacidade : ℕ) (no : No)
    (resto : List No) (lm : ℕ) (ms : List Bool) :
    ∀ x ∈ resto, x ∈ (bb_include itens capacidade no resto lm ms).1 := by
  intro x hx
  rcases bb_include_spec itens capacidade no resto lm ms with
    ⟨h, -, -⟩ | ⟨h, -⟩ <;> rw [h]
  · exact mem_pushNo.mpr (Or.inr hx)
  · exact hx

/-- Members of the include half's queue: old nodes, or the include child
(which then fits). -/

theorem bb_include_mem_cases (itens : List Item) (capacidade : ℕ) (no : No)
    (resto : List No) (lm : ℕ) (ms : List Bool) :
    ∀ x ∈ (bb_include itens capacidade no resto lm ms).1,
      x ∈ resto ∨ (x = noIncluir itens capacidade no ∧
        (noIncluir itens capacidade no).peso ≤ capacidade) := by
  intro x hx
  rcases bb_include_spec itens capacidade no resto lm ms with
    ⟨h, hfits, -⟩ | ⟨h, -⟩ <;> rw [h] at hx
  · rcases mem_pushNo.mp hx with h' | h'
    · exact Or.inr ⟨h', hfits⟩
    · exact Or.inl h'
  · exact Or.inl hx

/-- The include half's queue survives the exclude half. -/

theorem bb_exclude_mem (itens : List Item) (capacidade : ℕ) (no : No)
    (s1 : List No × ℕ × List Bool) :
    ∀ x ∈ s1.1, x ∈ (bb_exclude itens capacidade no s1).fila := by
  intro x hx
  rcases bb_exclude_spec itens capacidade no s1 with ⟨h, -⟩ | ⟨h, -⟩ <;> rw [h]
  · exact mem_pushNo.mpr (Or.inr hx)
  · exact hx

/-- Members of the exclude half's queue: nodes of the include half's
queue, or the exclude child. -/

theorem bb_exclude_mem_cases (itens : List Item) (capacidade : ℕ) (no : No)
    (s1 : List No × ℕ × List Bool) :
    ∀ x ∈ (bb_exclude itens capacidade no s1).fila,
      x ∈ s1.1 ∨ x = noExcluir itens capacidade no := by
  intro x hx
  rcases bb_exclude_spec itens capacidade no s1 with ⟨h, -⟩ | ⟨h, -⟩ <;>
    rw [h] at hx
  · rcases mem_pushNo.mp hx with h' | h'
    · exact Or.inr h'
    · exact Or.inl h'
  · exact Or.inl hx

theorem BBInv_mk {capacidade n : ℕ} {itens : List Item} {fila : List No}
    {lm : ℕ} {ms : List Bool}
    (h1 : ∀ no ∈ fila, NodeOk capacidade n itens no ∧
      ((bestNo capacidade itens no : ℕ) : ℚ) ≤ no.limitante)
    (h2 : MsOk capacidade n itens lm ms)
    (h3 : optVal capacidade (pairsOf itens) ≤ lm ∨
      ∃ no ∈ fila, optVal capacidade (pairsOf itens) ≤
        bestNo capacidade itens no) :
    BBInv capacidade n itens ⟨fila, lm, ms⟩ :=
  ⟨h1, h2, h3⟩

/-- One loop iteration preserves the search invariant. -/

theorem bb_step_inv {capacidade n : ℕ} {itens : List Item}
    (hok : ItensOk n itens) :
    ∀ s : BBState, BBInv capacidade n itens s →
      BBInv capacidade n itens (bb_step itens capacidade s) := by
  rintro ⟨fila, lm, ms⟩ ⟨hnodes, hms, hopt⟩
  dsimp only at hnodes hms hopt
  cases fila with
  | nil =>
    simp only [bb_step]
    exact BBInv_mk hnodes hms hopt
  | cons no resto =>
    obtain ⟨hno, hbound⟩ := hnodes no (List.mem_cons_self no resto)
    have hpc : no.peso ≤ capacidade := by
      obtain ⟨S, -, -, -, hpc, -⟩ := hno
      exact hpc
    have hnodes' : ∀ x ∈ resto, NodeOk capacidade n itens x ∧
        ((bestNo capacidade itens x : ℕ) : ℚ) ≤ x.limitante :=
      fun x hx => hnodes x (List.mem_cons_of_mem no hx)
    simp only [bb_step]
    by_cases hprune : no.limitante ≤ (lm : ℚ)
    · rw [if_pos hprune]
      refine BBInv_mk hnodes' hms ?_
      rcases hopt with h | ⟨x, hx, h⟩
      · exact Or.inl h
      · rcases List.mem_cons.mp hx with heq | hx'
        · subst heq
          left
          have h1 : ((bestNo capacidade itens x : ℕ) : ℚ) ≤ (lm : ℚ) :=
            le_trans hbound hprune
          have h2 : bestNo capacidade itens x ≤ lm := by exact_mod_cast h1
          omega
        · exact Or.inr ⟨x, hx', h⟩
    · rw [if_neg hprune]
      by_cases hterm : itens.length ≤ no.nivel
      · rw [if_pos hterm]
        by_cases hupd : lm < no.lucro
        · rw [if_pos hupd]
          refine BBInv_mk hnodes' (MsOk_of_NodeOk hno) ?_
          rcases hopt with h | ⟨x, hx, h⟩
          · exact Or.inl (by omega)
          · rcases List.mem_cons.mp hx with heq | hx'
            · subst heq
              left
              rw [bestNo_terminal hterm] at h
              omega
            · exact Or.inr ⟨x, hx', h⟩
        · rw [if_neg hupd]
          refine BBInv_mk hnodes' hms ?_
          rcases hopt with h | ⟨x, hx, h⟩
          · exact Or.inl h
          · rcases List.mem_cons.mp hx with heq | hx'
            · subst heq
              left
              rw [bestNo_terminal hterm] at h
              omega
            · exact Or.inr ⟨x, hx', h⟩
      · rw [if_neg hterm]
        have hlt : no.nivel < itens.length := by omega
        obtain ⟨hsorted, hw1, hidx, hnd⟩ := hok
        have hok' : ItensOk n itens := ⟨hsorted, hw1, hidx, hnd⟩
        have hexcl_ok : NodeOk capacidade n itens
            (noExcluir itens capacidade no) := NodeOk_noExcluir hno hlt
        have hexcl_pc : (noExcluir itens capacidade no).peso ≤ capacidade := hpc
        have hexcl_bd : ((bestNo capacidade itens
            (noExcluir itens capacidade no) : ℕ) : ℚ) ≤
            (noExcluir itens capacidade no).limitante := by
          rw [noExcluir_limitante]
          exact bestNo_le_limitante _ _ _ hsorted hw1 hexcl_pc
        have hincl_ok : (noIncluir itens capacidade no).peso ≤ capacidade →
            NodeOk capacidade n itens (noIncluir itens capacidade no) :=
          fun hfits => NodeOk_noIncluir hok' hno hlt hfits
        have hincl_bd : (noIncluir itens capacidade no).peso ≤ capacidade →
            ((bestNo capacidade itens (noIncluir itens capacidade no) : ℕ) : ℚ) ≤
              (noIncluir itens capacidade no).limitante := by
          intro hfits
          rw [noIncluir_limitante]
          exact bestNo_le_limitante _ _ _ hsorted hw1 hfits
        have hms1 : MsOk capacidade n itens
            ((bb_include itens capacidade no resto lm ms).2.1)
            ((bb_include itens capacidade no resto lm ms).2.2) := by
          rcases bb_include_incumbent itens capacidade no resto lm ms with
            ⟨h1, h2⟩ | ⟨h1, h2, -, -, hfit2⟩
          · rw [h1, h2]
            exact hms
          · rw [h1, h2]
            exact MsOk_of_NodeOk (hincl_ok hfit2)
        have hlm1 : lm ≤ (bb_include itens capacidade no resto lm ms).2.1 :=
          bb_include_lm_le itens capacidade no resto lm ms
        have hnodes2 : ∀ x ∈ (bb_exclude itens capacidade no
            (bb_include itens capacidade no resto lm ms)).fila,
            NodeOk capacidade n itens x ∧
              ((bestNo capacidade itens x : ℕ) : ℚ) ≤ x.limitante := by
          intro x hx
          rcases bb_exclude_mem_cases itens capacidade no _ x hx with hx1 | heq
          · rcases bb_include_mem_cases itens capacidade no resto lm ms x hx1
              with hx2 | ⟨heq, hfits⟩
            · exact hnodes' x hx2
            · subst heq
              exact ⟨hincl_ok hfits, hincl_bd hfits⟩
          · subst heq
            exact ⟨hexcl_ok, hexcl_bd⟩
        have hopt2 : optVal capacidade (pairsOf itens) ≤
            (bb_include itens capacidade no resto lm ms).2.1 ∨
            ∃ x ∈ (bb_exclude itens capacidade no
              (bb_include itens capacidade no resto lm ms)).fila,
              optVal capacidade (pairsOf itens) ≤
                bestNo capacidade itens x := by
          rcases hopt with h | ⟨x, hx, h⟩
          · exact Or.inl (le_trans h hlm1)
          · rcases List.mem_cons.mp hx with heq | hx'
            · subst heq
              rw [bestNo_split hlt hpc] at h
              by_cases hfits : x.peso + (itemAt itens x.nivel).peso ≤ capacidade
              · rw [if_pos hfits] at h
                rcases le_max_iff.mp h with hbi | hbe
                · have hfits' : (noIncluir itens capacidade x).peso ≤
                      capacidade := by
                    rw [noIncluir_peso]
                    exact hfits
                  rcases bb_include_spec itens capacidade x resto lm ms with
                    ⟨hq, -, -⟩ | ⟨hq, hnp⟩
                  · refine Or.inr ⟨noIncluir itens capacidade x, ?_, hbi⟩
                    apply bb_exclude_mem
                    rw [hq]
                    exact mem_pushNo.mpr (Or.inl rfl)
                  · left
                    have h1 := hnp hfits'
                    push_neg at h1
                    have h2 := le_trans (hincl_bd hfits') h1
                    have h3 : bestNo capacidade itens
                        (noIncluir itens capacidade x) ≤
                        (bb_include itens capacidade x resto lm ms).2.1 := by
                      exact_mod_cast h2
                    omega
                · rcases bb_exclude_spec itens capacidade x
                      (bb_include itens capacidade x resto lm ms) with
                    ⟨hq, -⟩ | ⟨hq, hnp⟩
                  · refine Or.inr ⟨noExcluir itens capacidade x, ?_, hbe⟩
                    rw [hq]
                    exact mem_pushNo.mpr (Or.inl rfl)
                  · left
                    push_neg at hnp
                    have h2 := le_trans hexcl_bd hnp
                    have h3 : bestNo capacidade itens
                        (noExcluir itens capacidade x) ≤
                        (bb_include itens capacidade x resto lm ms).2.1 := by
                      exact_mod_cast h2
                    omega
              · rw [if_neg hfits] at h
                rcases bb_exclude_spec itens capacidade x
                    (bb_include itens capacidade x resto lm ms) with
                  ⟨hq, -⟩ | ⟨hq, hnp⟩
                · refine Or.inr ⟨noExcluir itens capacidade x, ?_, h⟩
                  rw [hq]
                  exact mem_pushNo.mpr (Or.inl rfl)
                · left
                  push_neg at hnp
                  have h2 := le_trans hexcl_bd hnp
                  have h3 : bestNo capacidade itens
                      (noExcluir itens capacidade x) ≤
                      (bb_include itens capacidade x resto lm ms).2.1 := by
                    exact_mod_cast h2
                  omega
            · refine Or.inr ⟨x, ?_, h⟩
              exact bb_exclude_mem itens capacidade no _ x
                (bb_include_mem itens capacidade no resto lm ms x hx')
        obtain ⟨hq1, hq2⟩ := bb_exclude_incumbent itens capacidade no
          (bb_include itens capacidade no resto lm ms)
        refine ⟨hnodes2, ?_, ?_⟩
        · rw [hq1, hq2]
          exact hms1
        · rw [hq1]
          exact hopt2

/-- A sufficient step budget preserves the invariant and empties the
queue. -/

theorem bb_run_fuel_inv {capacidade n : ℕ} {itens : List Item}
    (hok : ItensOk n itens) :
    ∀ (k : ℕ) (s : BBState), filaMedida itens.length s.fila ≤ k →
      BBInv capacidade n itens s →
      BBInv capacidade n itens (bb_run_fuel itens capacidade k s) ∧
        (bb_run_fuel itens capacidade k s).fila = [] := by
  intro k
  induction k with
  | zero =>
    intro s hk hinv
    have hnil : s.fila = [] := by
      cases hfila : s.fila with
      | nil => rfl
      | cons a l =>
        exfalso
        have h1 := noMedida_pos itens.length a
        have h2 : filaMedida itens.length (a :: l) =
            noMedida itens.length a + filaMedida itens.length l := by
          simp [filaMedida]
        rw [hfila] at hk
        omega
    simp only [bb_run_fuel]
    exact ⟨hinv, hnil⟩
  | succ k ih =>
    intro s hk hinv
    simp only [bb_run_fuel]
    by_cases hnil : s.fila = []
    · rw [if_pos hnil]
      exact ⟨hinv, hnil⟩
    · rw [if_neg hnil]
      refine ih (bb_step itens capacidade s) ?_ (bb_step_inv hok s hinv)
      have := bb_step_medida itens capacidade s hnil
      omega

/-- Running the loop preserves the invariant and empties the queue. -/

theorem bb_run_inv {capacidade n : ℕ} {itens : List Item}
    (hok : ItensOk n itens) :
    ∀ s : BBState, BBInv capacidade n itens s →
      BBInv capacidade n itens (bb_run itens capacidade s) ∧
        (bb_run itens capacidade s).fila = [] := fun s hinv =>
  bb_run_fuel_inv hok (filaMedida itens.length s.fila) s (le_refl _) hinv

/-- The density-sorted item list of a well-formed instance satisfies all
the search preconditions. -/

theorem ItensOk_sortItens (pesos valores : List ℕ)
    (hw : ∀ p ∈ pesos, 1 ≤ p) :
    ItensOk pesos.length (sortItens (mkItens pesos valores)) := by
  have hperm : (sortItens (mkItens pesos valores)).Perm (mkItens pesos valores) :=
    sortItens_perm _
  refine ⟨List.sorted_insertionSort _ _, ?_, ?_, ?_⟩
  · intro it hit
    obtain ⟨h1, -, h3⟩ := mkItens_compat pesos valores it (hperm.mem_iff.mp hit)
    have hg : pesos.getD it.indice 0 = pesos[it.indice] := by
      rw [List.getD_eq_getElem?_getD, List.getElem?_eq_getElem h3]
      rfl
    rw [← h1, hg]
    exact hw _ (List.getElem_mem h3)
  · intro it hit
    exact (mkItens_compat pesos valores it (hperm.mem_iff.mp hit)).2.2
  · have h := hperm.map Item.indice
    rw [h.nodup_iff, mkItens_map_indice]
    exact List.nodup_range _

theorem replicate_getD_false (n j : ℕ) :
    (List.replicate n false).getD j false = false := by
  rw [List.getD_eq_getElem?_getD, List.getElem?_replicate]
  by_cases h : j < n
  · rw [if_pos h]
    rfl
  · rw [if_neg h]
    rfl

/-- The initial state of the search satisfies the invariant. -/

theorem BBInv_init (capacidade n : ℕ) (itens : List Item)
    (hsorted : itens.Pairwise fun a b => b.razao ≤ a.razao)
    (hw1 : ∀ it ∈ itens, 1 ≤ it.peso) :
    BBInv capacidade n itens
      ⟨[⟨0, 0, 0,
          calcular_limitante ⟨0, 0, 0, 0, List.replicate n false⟩
            itens capacidade,
          List.replicate n false⟩], 0, List.replicate n false⟩ := by
  have hnodeok : NodeOk capacidade n itens
      ⟨0, 0, 0,
        calcular_limitante ⟨0, 0, 0, 0, List.replicate n false⟩
          itens capacidade,
        List.replicate n false⟩ := by
    refine ⟨[], ?_, rfl, rfl, Nat.zero_le _, Nat.zero_le _,
      List.length_replicate _ _, ?_⟩
    · simp
    · intro j
      rw [replicate_getD_false]
      simp
  refine BBInv_mk ?_ ?_ ?_
  · intro no hno
    rcases List.mem_singleton.mp hno with rfl
    refine ⟨hnodeok, ?_⟩
    exact bestNo_le_limitante _ _ _ hsorted hw1 (Nat.zero_le _)
  · refine ⟨[], List.nil_sublist _, rfl, Nat.zero_le _,
      List.length_replicate _ _, ?_⟩
    intro j
    rw [replicate_getD_false]
    simp
  · refine Or.inr ⟨_, List.mem_singleton_self _, ?_⟩
    simp [bestNo]

/-- The value returned by `knapsack_branch_and_bound` is the specification
optimum of the original instance. -/

theorem knapsack_branch_and_bound_optVal (capacidade : ℕ)
    (pesos valores : List ℕ) (hlen : pesos.length = valores.length)
    (hw : ∀ p ∈ pesos, 1 ≤ p) :
    (knapsack_branch_and_bound capacidade pesos valores).1 =
      optVal capacidade (pesos.zip valores) := by
  obtain ⟨hsorted, hw1, -, -⟩ := ItensOk_sortItens pesos valores hw
  have hinit := BBInv_init capacidade pesos.length
    (sortItens (mkItens pesos valores)) hsorted hw1
  obtain ⟨hinv, hnil⟩ :=
    bb_run_inv (ItensOk_sortItens pesos valores hw) _ hinit
  obtain ⟨-, hms, hopt⟩ := hinv
  simp only [knapsack_branch_and_bound]
  have hpp : (pairsOf (sortItens (mkItens pesos valores))).Perm
      (pairsOf (mkItens pesos valores)) := (sortItens_perm _).map _
  have hoptperm :
      optVal capacidade (pairsOf (sortItens (mkItens pesos valores))) =
        optVal capacidade (pesos.zip valores) := by
    rw [optVal_perm hpp capacidade, mkItens_pairsOf pesos valores hlen]
  have hle1 := MsOk_le_optVal hms
  rcases hopt with h | ⟨x, hx, -⟩
  · rw [← hoptperm]
    omega
  · rw [hnil] at hx
    exact absurd hx (List.not_mem_nil x)

/-- The selection returned by `knapsack_branch_and_bound` is feasible,
strictly ascending, and within range. -/

theorem knapsack_branch_and_bound_sel_props (capacidade : ℕ)
    (pesos valores : List ℕ) (hw : ∀ p ∈ pesos, 1 ≤ p) :
    (((knapsack_branch_and_bound capacidade pesos valores).2).map
        (fun j => pesos.getD j 0)).sum ≤ capacidade ∧
    ((knapsack_branch_and_bound capacidade pesos valores).2).Pairwise (· < ·) ∧
    ∀ j ∈ (knapsack_branch_and_bound capacidade pesos valores).2,
      j < pesos.length := by
  obtain ⟨hsorted, hw1, hidx, hnd⟩ := ItensOk_sortItens pesos valores hw
  have hinit := BBInv_init capacidade pesos.length
    (sortItens (mkItens pesos valores)) hsorted hw1
  obtain ⟨hinv, -⟩ :=
    bb_run_inv (ItensOk_sortItens pesos valores hw) _ hinit
  obtain ⟨-, hms, -⟩ := hinv
  obtain ⟨S, hS, hv, hwS, hmslen, hmark⟩ := hms
  have hcompat : ∀ it ∈ S, pesos.getD it.indice 0 = it.peso := by
    intro it hit
    exact (mkItens_compat pesos valores it
      ((sortItens_perm _).mem_iff.mp (hS.subset hit))).1
  have hidxS : ∀ j ∈ S.map Item.indice, j < pesos.length := by
    intro j hj
    obtain ⟨it, hit, rfl⟩ := List.mem_map.mp hj
    exact hidx it (hS.subset hit)
  have hnd2 : (S.map Item.indice).Nodup := (hS.map Item.indice).nodup hnd
  simp only [knapsack_branch_and_bound]
  have key : ((List.range pesos.length).filter
      (fun i => (bb_run (sortItens (mkItens pesos valores)) capacidade
        ⟨[⟨0, 0, 0,
            calcular_limitante
              ⟨0, 0, 0, 0, List.replicate pesos.length false⟩
              (sortItens (mkItens pesos valores)) capacidade,
            List.replicate pesos.length false⟩], 0,
          List.replicate pesos.length false⟩).melhor_solucao.getD i
          false)).Perm (S.map Item.indice) := by
    rw [List.perm_ext_iff_of_nodup ((List.nodup_range _).filter _) hnd2]
    intro a
    rw [List.mem_filter, List.mem_range]
    constructor
    · rintro ⟨-, hpa⟩
      exact (hmark a).mp hpa
    · intro ha
      exact ⟨hidxS a ha, (hmark a).mpr ha⟩
  refine ⟨?_, ?_, ?_⟩
  · rw [(key.map (fun j => pesos.getD j 0)).sum_eq, List.map_map]
    have : S.map ((fun j => pesos.getD j 0) ∘ Item.indice) =
        S.map Item.peso :=
      List.map_congr_left fun it hit => hcompat it hit
    rw [this]
    exact hwS
  · exact (List.pairwise_lt_range _).filter _
  · intro j hj
    exact List.mem_range.mp (List.mem_filter.mp hj).1

/-!
## Feasibility of every queued node
-/

/-- Feasibility of all queued nodes is preserved by one loop iteration:
the include child is pushed only under its explicit weight check, and the
exclude child inherits its parent's (feasible) weight. -/

theorem bb_step_peso_le (itens : List Item) (capacidade : ℕ) (s : BBState)
    (h : ∀ x ∈ s.fila, x.peso ≤ capacidade) :
    ∀ x ∈ (bb_step itens capacidade s).fila, x.peso ≤ capacidade := by
  obtain ⟨fila, lm, ms⟩ := s
  dsimp only at h
  cases fila with
  | nil =>
    simp only [bb_step]
    exact h
  | cons no resto =>
    have hno := h no (List.mem_cons_self no resto)
    have hresto : ∀ x ∈ resto, x.peso ≤ capacidade :=
      fun x hx => h x (List.mem_cons_of_mem no hx)
    simp only [bb_step]
    by_cases hprune : no.limitante ≤ (lm : ℚ)
    · rw [if_pos hprune]
      exact hresto
    · rw [if_neg hprune]
      by_cases hterm : itens.length ≤ no.nivel
      · rw [if_pos hterm]
        by_cases hupd : lm < no.lucro
        · rw [if_pos hupd]
          exact hresto
        · rw [if_neg hupd]
          exact hresto
      · rw [if_neg hterm]
        intro x hx
        rcases bb_exclude_mem_cases itens capacidade no _ x hx with hx1 | heq
        · rcases bb_include_mem_cases itens capacidade no resto lm ms x hx1
            with hx2 | ⟨heq, hfits⟩
          · exact hresto x hx2
          · subst heq
            exact hfits
        · subst heq
          rw [noExcluir_peso]
          exact hno

/-!
## Degenerate empty instance
-/

theorem knapsack_dynamic_programming_empty (capacidade : ℕ) :
    knapsack_dynamic_programming capacidade [] [] = (0, []) := rfl

theorem knapsack_backtracking_empty (capacidade : ℕ) :
    knapsack_backtracking capacidade [] [] = (0, []) := rfl

theorem knapsack_branch_and_bound_empty (capacidade : ℕ) :
    knapsack_branch_and_bound capacidade [] [] = (0, []) := by
  have hcl : calcular_limitante ⟨0, 0, 0, 0, List.replicate 0 false⟩
      (sortItens (mkItens [] [])) capacidade = ((0 : ℕ) : ℚ) :=
    calcular_limitante_feasible (Nat.zero_le capacidade)
  simp only [knapsack_branch_and_bound, List.length_nil, hcl]
  rfl

theorem bb_build_loop_spec (pesos valores : List ℕ) :
    ∀ (idxs : List ℕ) (acc : List Item),
      bb_build_loop idxs (acc, pesos, valores) =
        (acc ++ idxs.map fun i => ⟨pesos.getD i 0, valores.getD i 0, i⟩,
         pesos, valores) := by
  intro idxs
  induction idxs with
  | nil =>
    intro acc
    simp [bb_build_loop]
  | cons i rest ih =>
    intro acc
    have step : bb_build_loop (i :: rest) (acc, pesos, valores) =
        bb_build_loop rest
          (acc ++ [⟨pesos.getD i 0, valores.getD i 0, i⟩], pesos, valores) := rfl
    rw [step, ih]
    simp

/-- The search never writes to the weight and value vectors: the final
vector state equals the initial one, and the result is that of
`knapsack_branch_and_bound`. -/

theorem knapsack_branch_and_bound_frame (capacidade : ℕ)
    (pesos valores : List ℕ) :
    knapsack_branch_and_bound_state capacidade pesos valores =
      (knapsack_branch_and_bound capacidade pesos valores, pesos, valores) := by
  simp only [knapsack_branch_and_bound_state, knapsack_branch_and_bound,
    bb_build_loop_spec pesos valores (List.range pesos.length) [],
    List.nil_append]
  rfl

/-!
## The claims
-/

/-- C1: for every well-formed instance (capacity ≥ 0, equal-length weight
and value sequences with weights ≥ 1 — values ≥ 0 holds by the `ℕ`
embedding — and n ≥ 1), the three solvers `knapsack_dynamic_programming`,
`knapsack_backtracking` and `knapsack_branch_and_bound` return the
identical `maxValue`. -/

theorem claim_C1 (capacidade : ℕ) (pesos valores : List ℕ)
    (hlen : pesos.length = valores.length) (hw : ∀ p ∈ pesos, 1 ≤ p)
    (hn : 1 ≤ pesos.length) :
    (knapsack_backtracking capacidade pesos valores).1 =
      (knapsack_dynamic_programming capacidade pesos valores).1 ∧
    (knapsack_branch_and_bound capacidade pesos valores).1 =
      (knapsack_dynamic_programming capacidade pesos valores).1 := by
  rw [knapsack_dynamic_programming_optVal capacidade pesos valores hlen,
    knapsack_backtracking_optVal capacidade pesos valores hlen,
    knapsack_branch_and_bound_optVal capacidade pesos valores hlen hw]
  exact ⟨rfl, rfl⟩

theorem claim_C1_witness :
    (([5, 4, 3] : List ℕ).length = ([10, 7, 5] : List ℕ).length ∧
      (∀ p ∈ ([5, 4, 3] : List ℕ), 1 ≤ p) ∧
      1 ≤ ([5, 4, 3] : List ℕ).length) ∧
    ((knapsack_backtracking 10 [5, 4, 3] [10, 7, 5]).1 =
      (knapsack_dynamic_programming 10 [5, 4, 3] [10, 7, 5]).1 ∧
    (knapsack_branch_and_bound 10 [5, 4, 3] [10, 7, 5]).1 =
      (knapsack_dynamic_programming 10 [5, 4, 3] [10, 7, 5]).1) :=
  ⟨⟨by decide, by decide, by decide⟩,
   claim_C1 10 [5, 4, 3] [10, 7, 5] (by decide) (by decide) (by decide)⟩

/-- C2: for every well-formed instance and each of the three solvers, the
sum of `weights[i]` over the returned `selectedIndices` is at most the
capacity. -/

theorem claim_C2 (capacidade : ℕ) (pesos valores : List ℕ)
    (hlen : pesos.length = valores.length) (hw : ∀ p ∈ pesos, 1 ≤ p)
    (hn : 1 ≤ pesos.length) :
    (((knapsack_dynamic_programming capacidade pesos valores).2).map
        (fun j => pesos.getD j 0)).sum ≤ capacidade ∧
    (((knapsack_backtracking capacidade pesos valores).2).map
        (fun j => pesos.getD j 0)).sum ≤ capacidade ∧
    (((knapsack_branch_and_bound capacidade pesos valores).2).map
        (fun j => pesos.getD j 0)).sum ≤ capacidade :=
  ⟨reconstruct_weight_le pesos valores pesos.length capacidade,
   (knapsack_backtracking_sel_props capacidade pesos valores).1,
   (knapsack_branch_and_bound_sel_props capacidade pesos valores hw).1⟩

theorem claim_C2_witness :
    (([5, 4, 3] : List ℕ).length = ([10, 7, 5] : List ℕ).length ∧
      (∀ p ∈ ([5, 4, 3] : List ℕ), 1 ≤ p) ∧
      1 ≤ ([5, 4, 3] : List ℕ).length) ∧
    ((((knapsack_dynamic_programming 10 [5, 4, 3] [10, 7, 5]).2).map
        (fun j => ([5, 4, 3] : List ℕ).getD j 0)).sum ≤ 10 ∧
    (((knapsack_backtracking 10 [5, 4, 3] [10, 7, 5]).2).map
        (fun j => ([5, 4, 3] : List ℕ).getD j 0)).sum ≤ 10 ∧
    (((knapsack_branch_and_bound 10 [5, 4, 3] [10, 7, 5]).2).map
        (fun j => ([5, 4, 3] : List ℕ).getD j 0)).sum ≤ 10) :=
  ⟨⟨by decide, by decide, by decide⟩,
   claim_C2 10 [5, 4, 3] [10, 7, 5] (by decide) (by decide) (by decide)⟩

/-- C3 counterexample: on the well-formed instance `capacity = 2`,
`weights = values = [1, 1]`, the 2D dynamic-programming solver selects
both items and returns `[1, 0]`, which is not an ascending sequence, so
the claim that each of the three solvers (including the plain 2D variant)
returns ascending indices fails. -/

theorem claim_C3_counterexample :
    (knapsack_dynamic_programming 2 [1, 1] [1, 1]).2 = [1, 0] ∧
    ¬ ((knapsack_dynamic_programming 2 [1, 1] [1, 1]).2).Pairwise
      (· < ·) := by
  constructor
  · decide
  · decide

/-- C3 (amended): for every well-formed instance, the backtracking and
branch-and-bound solvers return strictly ascending sequences of distinct
indices in `[0, n)`, while the plain 2D dynamic-programming variant
returns a strictly descending sequence of distinct indices in `[0, n)`
(it pushes indices from item `n-1` down without reversing). -/

theorem claim_C3_amended (capacidade : ℕ) (pesos valores : List ℕ)
    (hlen : pesos.length = valores.length) (hw : ∀ p ∈ pesos, 1 ≤ p)
    (hn : 1 ≤ pesos.length) :
    ((knapsack_dynamic_programming capacidade pesos valores).2.Pairwise
        (fun a b => b < a) ∧
      ∀ j ∈ (knapsack_dynamic_programming capacidade pesos valores).2,
        j < pesos.length) ∧
    ((knapsack_backtracking capacidade pesos valores).2.Pairwise (· < ·) ∧
      ∀ j ∈ (knapsack_backtracking capacidade pesos valores).2,
        j < pesos.length) ∧
    ((knapsack_branch_and_bound capacidade pesos valores).2.Pairwise
        (· < ·) ∧
      ∀ j ∈ (knapsack_branch_and_bound capacidade pesos valores).2,
        j < pesos.length) :=
  ⟨⟨reconstruct_descending pesos valores pesos.length capacidade,
    fun j hj => reconstruct_mem_lt pesos valores pesos.length capacidade j hj⟩,
   ⟨(knapsack_backtracking_sel_props capacidade pesos valores).2.1,
    (knapsack_backtracking_sel_props capacidade pesos valores).2.2⟩,
   ⟨(knapsack_branch_and_bound_sel_props capacidade pesos valores hw).2.1,
    (knapsack_branch_and_bound_sel_props capacidade pesos valores hw).2.2⟩⟩

theorem claim_C3_amended_witness :
    (([1, 1] : List ℕ).length = ([1, 1] : List ℕ).length ∧
      (∀ p ∈ ([1, 1] : List ℕ), 1 ≤ p) ∧ 1 ≤ ([1, 1] : List ℕ).length) ∧
    (((knapsack_dynamic_programming 2 [1, 1] [1, 1]).2.Pairwise
        (fun a b => b < a) ∧
      ∀ j ∈ (knapsack_dynamic_programming 2 [1, 1] [1, 1]).2, j < 2) ∧
    ((knapsack_backtracking 2 [1, 1] [1, 1]).2.Pairwise (· < ·) ∧
      ∀ j ∈ (knapsack_backtracking 2 [1, 1] [1, 1]).2, j < 2) ∧
    ((knapsack_branch_and_bound 2 [1, 1] [1, 1]).2.Pairwise (· < ·) ∧
      ∀ j ∈ (knapsack_branch_and_bound 2 [1, 1] [1, 1]).2, j < 2)) :=
  ⟨⟨by decide, by decide, by decide⟩,
   claim_C3_amended 2 [1, 1] [1, 1] (by decide) (by decide) (by decide)⟩

/-- C4 counterexample: on `capacity = 100`,
`weights = [10, 20, 30, 40, 50]`, `values = [60, 100, 120, 160, 200]`,
the subset `{0, 1, 2, 3}` weighs exactly 100 and is worth
`60 + 100 + 120 + 160 = 440`, so no solver returns 220. -/

theorem claim_C4_counterexample :
    ¬ ((knapsack_dynamic_programming 100 [10, 20, 30, 40, 50]
          [60, 100, 120, 160, 200]).1 = 220 ∧
       (knapsack_backtracking 100 [10, 20, 30, 40, 50]
          [60, 100, 120, 160, 200]).1 = 220 ∧
       (knapsack_branch_and_bound 100 [10, 20, 30, 40, 50]
          [60, 100, 120, 160, 200]).1 = 220) := by
  intro h
  exact absurd h.1 (by decide)

/-- C4 (amended): on the instance `capacity = 100`,
`weights = [10, 20, 30, 40, 50]`, `values = [60, 100, 120, 160, 200]`,
each of the three solvers returns `maxValue = 440` (not 220; the optimal
set is `{0, 1, 2, 3}` with weight `100` and value `440`). -/

theorem claim_C4_amended :
    (knapsack_dynamic_programming 100 [10, 20, 30, 40, 50]
      [60, 100, 120, 160, 200]).1 = 440 ∧
    (knapsack_backtracking 100 [10, 20, 30, 40, 50]
      [60, 100, 120, 160, 200]).1 = 440 ∧
    (knapsack_branch_and_bound 100 [10, 20, 30, 40, 50]
      [60, 100, 120, 160, 200]).1 = 440 := by
  refine ⟨by decide, by decide, by decide⟩

/-- C5: for every instance, the 2D-table variant
`knapsack_dynamic_programming` and the memory-optimized 1D variant
`knapsack_dynamic_programming_optimized` return the same `maxValue`. -/

theorem claim_C5 (capacidade : ℕ) (pesos valores : List ℕ) :
    (knapsack_dynamic_programming_optimized capacidade pesos valores).1 =
      (knapsack_dynamic_programming capacidade pesos valores).1 :=
  dp_variants_same_value capacidade pesos valores

/-- C6: for every node of feasible accumulated weight, over items of
weight at least 1 sorted by non-increasing density,
`calcular_limitante(no, itens, capacidade)` is at least `no.lucro` plus
the total value of any feasible completion of the node — any
sub-selection of the items at positions `≥ no.nivel` whose weight added
to `no.peso` stays within the capacity. -/

theorem claim_C6 (no : No) (itens : List Item) (capacidade : ℕ)
    (hsorted : itens.Pairwise fun a b => b.razao ≤ a.razao)
    (hw : ∀ it ∈ itens, 1 ≤ it.peso)
    (hpc : no.peso ≤ capacidade)
    (S : List Item) (hS : S.Sublist (itens.drop no.nivel))
    (hfeas : no.peso + (S.map Item.peso).sum ≤ capacidade) :
    (no.lucro : ℚ) + ((S.map Item.valor).sum : ℚ) ≤
      calcular_limitante no itens capacidade := by
  have h := calcular_limitante_ge no itens capacidade hsorted hw hpc S hS hfeas
  rw [Nat.cast_add] at h
  exact h

theorem claim_C6_witness :
    (([⟨2, 6, 0⟩, ⟨3, 3, 1⟩] : List Item).Pairwise
        (fun a b => b.razao ≤ a.razao) ∧
      (∀ it ∈ ([⟨2, 6, 0⟩, ⟨3, 3, 1⟩] : List Item), 1 ≤ it.peso) ∧
      (⟨0, 0, 0, 0, [false, false]⟩ : No).peso ≤ 4 ∧
      ([⟨2, 6, 0⟩] : List Item).Sublist
        (([⟨2, 6, 0⟩, ⟨3, 3, 1⟩] : List Item).drop
          (⟨0, 0, 0, 0, [false, false]⟩ : No).nivel) ∧
      (⟨0, 0, 0, 0, [false, false]⟩ : No).peso +
        (([⟨2, 6, 0⟩] : List Item).map Item.peso).sum ≤ 4) ∧
    ((⟨0, 0, 0, 0, [false, false]⟩ : No).lucro : ℚ) +
        ((([⟨2, 6, 0⟩] : List Item).map Item.valor).sum : ℚ) ≤
      calcular_limitante ⟨0, 0, 0, 0, [false, false]⟩
        [⟨2, 6, 0⟩, ⟨3, 3, 1⟩] 4 :=
  ⟨⟨by decide, by decide, by decide, by decide, by decide⟩,
   claim_C6 ⟨0, 0, 0, 0, [false, false]⟩ [⟨2, 6, 0⟩, ⟨3, 3, 1⟩] 4
     (by decide) (by decide) (by decide) [⟨2, 6, 0⟩] (by decide) (by decide)⟩

/-- C7: for any capacity and the empty item sequences, each of the three
solvers returns `(0, [])` without error. -/

theorem claim_C7 (capacidade : ℕ) :
    knapsack_dynamic_programming capacidade [] [] = (0, []) ∧
    knapsack_backtracking capacidade [] [] = (0, []) ∧
    knapsack_branch_and_bound capacidade [] [] = (0, []) :=
  ⟨knapsack_dynamic_programming_empty capacidade,
   knapsack_backtracking_empty capacidade,
   knapsack_branch_and_bound_empty capacidade⟩

/-- C8: for two capacities `W₁ ≤ W₂` over the same well-formed weights
and values, each solver's `maxValue` at `W₁` is at most its `maxValue` at
`W₂`. -/

theorem claim_C8 (W₁ W₂ : ℕ) (pesos valores : List ℕ)
    (hlen : pesos.length = valores.length) (hw : ∀ p ∈ pesos, 1 ≤ p)
    (hn : 1 ≤ pesos.length) (hW : W₁ ≤ W₂) :
    (knapsack_dynamic_programming W₁ pesos valores).1 ≤
      (knapsack_dynamic_programming W₂ pesos valores).1 ∧
    (knapsack_backtracking W₁ pesos valores).1 ≤
      (knapsack_backtracking W₂ pesos valores).1 ∧
    (knapsack_branch_and_bound W₁ pesos valores).1 ≤
      (knapsack_branch_and_bound W₂ pesos valores).1 := by
  rw [knapsack_dynamic_programming_optVal W₁ pesos valores hlen,
    knapsack_dynamic_programming_optVal W₂ pesos valores hlen,
    knapsack_backtracking_optVal W₁ pesos valores hlen,
    knapsack_backtracking_optVal W₂ pesos valores hlen,
    knapsack_branch_and_bound_optVal W₁ pesos valores hlen hw,
    knapsack_branch_and_bound_optVal W₂ pesos valores hlen hw]
  exact ⟨optVal_mono_cap hW _, optVal_mono_cap hW _, optVal_mono_cap hW _⟩

theorem claim_C8_witness :
    (([5, 4, 3] : List ℕ).length = ([10, 7, 5] : List ℕ).length ∧
      (∀ p ∈ ([5, 4, 3] : List ℕ), 1 ≤ p) ∧
      1 ≤ ([5, 4, 3] : List ℕ).length ∧ (6 : ℕ) ≤ 10) ∧
    ((knapsack_dynamic_programming 6 [5, 4, 3] [10, 7, 5]).1 ≤
      (knapsack_dynamic_programming 10 [5, 4, 3] [10, 7, 5]).1 ∧
    (knapsack_backtracking 6 [5, 4, 3] [10, 7, 5]).1 ≤
      (knapsack_backtracking 10 [5, 4, 3] [10, 7, 5]).1 ∧
    (knapsack_branch_and_bound 6 [5, 4, 3] [10, 7, 5]).1 ≤
      (knapsack_branch_and_bound 10 [5, 4, 3] [10, 7, 5]).1) :=
  ⟨⟨by decide, by decide, by decide, by decide⟩,
   claim_C8 6 10 [5, 4, 3] [10, 7, 5] (by decide) (by decide) (by decide)
     (by decide)⟩

/-- C9: on a well-formed instance, every node ever held by the priority
queue has accumulated weight at most the capacity — the root does, and
one loop iteration preserves the property for every pushed child — and
consequently every bound computed during the search takes the greedy
branch of `calcular_limitante`, never the infeasibility branch returning
0. -/

theorem claim_C9 (capacidade : ℕ) (pesos valores : List ℕ)
    (hw : ∀ p ∈ pesos, 1 ≤ p) :
    ((⟨0, 0, 0,
        calcular_limitante ⟨0, 0, 0, 0, List.replicate pesos.length false⟩
          (sortItens (mkItens pesos valores)) capacidade,
        List.replicate pesos.length false⟩ : No).peso ≤ capacidade) ∧
    (∀ s : BBState, (∀ x ∈ s.fila, x.peso ≤ capacidade) →
      ∀ x ∈ (bb_step (sortItens (mkItens pesos valores)) capacidade s).fila,
        x.peso ≤ capacidade) ∧
    (∀ no : No, no.peso ≤ capacidade →
      calcular_limitante no (sortItens (mkItens pesos valores)) capacidade =
        limitante_aux capacidade no.peso (no.lucro : ℚ)
          ((sortItens (mkItens pesos valores)).drop no.nivel)) :=
  ⟨Nat.zero_le _,
   fun s h => bb_step_peso_le (sortItens (mkItens pesos valores)) capacidade s h,
   fun _ h => calcular_limitante_feasible h⟩

theorem claim_C9_witness :
    (∀ p ∈ ([2] : List ℕ), 1 ≤ p) ∧
    (((⟨0, 0, 0,
        calcular_limitante ⟨0, 0, 0, 0, List.replicate ([2] : List ℕ).length false⟩
          (sortItens (mkItens [2] [3])) 5,
        List.replicate ([2] : List ℕ).length false⟩ : No).peso ≤ 5) ∧
    (∀ s : BBState, (∀ x ∈ s.fila, x.peso ≤ 5) →
      ∀ x ∈ (bb_step (sortItens (mkItens [2] [3])) 5 s).fila, x.peso ≤ 5) ∧
    (∀ no : No, no.peso ≤ 5 →
      calcular_limitante no (sortItens (mkItens [2] [3])) 5 =
        limitante_aux 5 no.peso (no.lucro : ℚ)
          ((sortItens (mkItens [2] [3])).drop no.nivel))) :=
  ⟨by decide, claim_C9 5 [2] [3] (by decide)⟩

/-- C10: `knapsack_branch_and_bound` receives `pesos` and `valores` by
non-const reference but never mutates them: threading the two vectors
through the computation as explicit state returns them unchanged,
alongside the unchanged result. -/

theorem claim_C10 (capacidade : ℕ) (pesos valores : List ℕ) :
    knapsack_branch_and_bound_state capacidade pesos valores =
      (knapsack_branch_and_bound capacidade pesos valores, pesos, valores) :=
  knapsack_branch_and_bound_frame capacidade pesos valores
